import Mathlib

/-!
# userspace_oom: `find_victim.cpp`

A shallow embedding of `src/find_victim.cpp` and the properties of it that the
specification states.

* Files are lists of characters; a file that cannot be opened is `none`.
* `std::ifstream` is a record of the unread characters and the `eofbit` and
  `failbit` flags; each `operator>>` used by the source is a function on it.
* A cgroup directory is a finite tree (`CgDir`): the content of its `tasks`
  file and what `opendir`/`readdir`/`stat` report for its entries.
* Effects (`slog`, `cgroup_attach_task_pid`, `kill`, the bookkeeping writes) are
  collected in a trace, in program order.
* Dereferencing a null `DIR*` or `FILE*` is undefined behaviour; the embedding
  records it in a flag `ub` and stops the run there.
-/

namespace UserspaceOom

/-! ## Character streams -/

/-- The C locale's `isspace`: space, `\t`, `\n`, `\v`, `\f`, `\r`. -/
def isspace (c : Char) : Bool :=
  c.toNat = 32 || (9 ≤ c.toNat && c.toNat ≤ 13)

/-- The C locale's `isdigit`. -/
def isdigit (c : Char) : Bool :=
  48 ≤ c.toNat && c.toNat ≤ 57

/-- A `std::ifstream` opened for reading: the unread characters and the two
state flags the source can observe through `good()`. -/
structure ifstream where
  buf : List Char
  eofbit : Bool
  failbit : Bool
  deriving DecidableEq

/-- The constructor `std::ifstream f(path, std::ifstream::in)`: a file that
cannot be opened leaves the stream with `failbit` set. -/
def ifstream_open : Option (List Char) → ifstream
  | none => { buf := [], eofbit := false, failbit := true }
  | some content => { buf := content, eofbit := false, failbit := false }

/-- The test `good()`: no state flag is set. -/
def ifstream.good (s : ifstream) : Bool :=
  !s.eofbit && !s.failbit

/-- The extraction `s >> token` for a `std::string` that is empty before the
call: skip leading whitespace, then take characters up to the next whitespace
or the end of the file. Reaching the end of the file sets `eofbit`; extracting
no character sets `failbit`. -/
def read_string (s : ifstream) : ifstream × List Char :=
  if s.good then
    match s.buf.dropWhile isspace with
    | [] => ({ buf := [], eofbit := true, failbit := true }, [])
    | c :: cs =>
      let rest := (c :: cs).dropWhile (fun x => !isspace x)
      ({ buf := rest, eofbit := rest.isEmpty, failbit := false },
        (c :: cs).takeWhile (fun x => !isspace x))
  else
    ({ s with failbit := true }, [])

/-- The value of a byte stored in a (signed) `char`. -/
def to_char (c : Char) : Int :=
  if c.toNat % 256 < 128 then (c.toNat % 256 : Nat) else (c.toNat % 256 : Nat) - 256

/-- The extraction `s >> c` for a `char`: skip leading whitespace and store the
next single character; at the end of the file nothing is stored and `eofbit`
and `failbit` are set. -/
def read_char (s : ifstream) (old : Int) : ifstream × Int :=
  if s.good then
    match s.buf.dropWhile isspace with
    | [] => ({ buf := [], eofbit := true, failbit := true }, old)
    | c :: cs => ({ buf := cs, eofbit := false, failbit := false }, to_char c)
  else
    ({ s with failbit := true }, old)

/-! ## `is_oom` -/

/-- The key searched for in `memory.oom_control`. -/
def under_oom : List Char := "under_oom".toList

/-- The `while(oc.good())` loop of `is_oom`; the result is the final value of
`isoom`, or `none` when the fuel runs out before the loop exits. -/
def is_oom_loop : Nat → ifstream → Int → Option Int
  | 0, _, _ => none
  | fuel + 1, oc, isoom =>
    if oc.good then
      let r := read_string oc
      if r.2 = under_oom then
        let r2 := read_char r.1 isoom
        is_oom_loop fuel r2.1 r2.2
      else
        is_oom_loop fuel r.1 isoom
    else
      some isoom

/-- How a call of `is_oom` ends. -/
inductive Outcome where
  | aborted
  | returned (v : Int)
  deriving DecidableEq

/-- The function `is_oom`, on the content of
`/<cgroup_path>/<cgroup_name>/memory.oom_control` (`none` when the file cannot
be opened): `abort()` when `isoom` still is -1, else 1 when it is not zero,
else 0. The result is `none` when the fuel runs out in the loop. -/
def is_oom (fuel : Nat) (file : Option (List Char)) : Option Outcome :=
  match is_oom_loop fuel (ifstream_open file) (-1) with
  | none => none
  | some isoom =>
    if isoom = -1 then some Outcome.aborted
    else if isoom ≠ 0 then some (Outcome.returned 1)
    else some (Outcome.returned 0)

/-- Whitespace-separated tokens of a text, `cur` being the token under
construction. -/
def tokens_from : List Char → List Char → List (List Char)
  | [], cur => if cur = [] then [] else [cur]
  | c :: cs, cur =>
    if isspace c then
      (if cur = [] then tokens_from cs [] else cur :: tokens_from cs [])
    else tokens_from cs (cur ++ [c])

/-- The token stream of a file: its maximal runs of non-whitespace
characters, in order; a file that cannot be opened has none. -/
def tokens : Option (List Char) → List (List Char)
  | none => []
  | some content => tokens_from content []

/-! ## Types of the pipeline -/

/-- The type `pid_t`: a signed integer. -/
abbrev pid_t := Int

/-- The type `uid_t`: an unsigned integer; the source only compares UIDs. -/
abbrev uid_t := Nat

/-- Modelled from the spec: the declaration of `memory_t` (`proc_utils.h`) is
not part of the sources; the specification speaks of resident-set sizes and
their exact sums, so the type is the natural numbers and sums do not wrap. -/
abbrev memory_t := Nat

/-- The bound `INT_MAX` for the 32-bit `int` behind `pid_t`. -/
def INT_MAX : Int := 2147483647

/-- The bound `INT_MIN` for the 32-bit `int` behind `pid_t`. -/
def INT_MIN : Int := -2147483648

/-- The value of `ENOTDIR` on Linux. -/
def ENOTDIR : Nat := 20

/-- The value of a decimal digit character. -/
def digit_value (c : Char) : Nat := c.toNat - 48

/-- The number a string of decimal digits denotes. -/
def decimal_value (ds : List Char) : Nat :=
  ds.foldl (fun acc c => 10 * acc + digit_value c) 0

/-- The extraction `s >> pid` for an `int`: skip leading whitespace, accept an
optional sign and the longest run of decimal digits. Reaching the end of the
file while reading sets `eofbit`; no digit, or a value outside `int`, sets
`failbit` (storing `0`, respectively the nearest bound). When the stream is not
usable, or is at its end after the whitespace, nothing is stored. -/
def read_int (s : ifstream) (old : Int) : ifstream × Int :=
  if s.good then
    match s.buf.dropWhile isspace with
    | [] => ({ buf := [], eofbit := true, failbit := true }, old)
    | c :: cs =>
      let b := if c = '-' ∨ c = '+' then cs else c :: cs
      let ds := b.takeWhile isdigit
      let rest := b.dropWhile isdigit
      let v : Int := if c = '-' then -(decimal_value ds : Int) else (decimal_value ds : Int)
      if ds = [] then ({ buf := rest, eofbit := rest.isEmpty, failbit := true }, 0)
      else if INT_MAX < v then ({ buf := rest, eofbit := rest.isEmpty, failbit := true }, INT_MAX)
      else if v < INT_MIN then ({ buf := rest, eofbit := rest.isEmpty, failbit := true }, INT_MIN)
      else ({ buf := rest, eofbit := rest.isEmpty, failbit := false }, v)
  else
    ({ s with failbit := true }, old)

/-- The read loop of `enumerate_users` and `enumerate_tasks`: while the stream
is good, read a PID; leave the loop when the read left the stream not good,
otherwise run the body on the PID. The variable `pid` is not initialised by the
source and is never used before a read stored it, so callers pass 0. When the
fuel runs out the accumulated state is returned as it is; `task_list_fuel` is
always enough. -/
def task_list_loop {σ : Type} (body : pid_t → σ → σ) : Nat → ifstream → pid_t → σ → σ
  | 0, _, _, acc => acc
  | fuel + 1, task_list, pid, acc =>
    if task_list.good then
      let r := read_int task_list pid
      if !r.1.good then acc
      else task_list_loop body fuel r.1 r.2 (body r.2 acc)
    else acc

/-- Fuel that lets `task_list_loop` run to its exit on the given file. -/
def task_list_fuel (file : Option (List Char)) : Nat :=
  (file.getD []).length + 2

/-- What the process can observe outside the cgroup tree. `get_uid` and
`get_rss` are the lookups of `proc_utils.h`. -/
structure World where
  /-- The owner of a process. -/
  get_uid : pid_t → uid_t
  /-- The resident set size of a process. -/
  get_rss : pid_t → memory_t
  /-- The content of `/proc/<pid>/cgroup`, `none` when it cannot be opened. -/
  proc_cgroup : pid_t → Option (List Char)
  /-- The content of `/proc/<pid>/stat`, `none` when it cannot be opened. -/
  proc_stat : pid_t → Option (List Char)
  /-- The value of the identifier `pid_state` that `sigkill_victim` tests.
  `find_victim.cpp` neither declares nor assigns it, so it is a value of the
  environment. -/
  pid_state : Char
  /-- Whether the `fopen` of `root_freezer_path` for writing succeeds in the
  iteration for a process. -/
  fopen_root_freezer : pid_t → Bool
  /-- Whether the `fopen` of `root_memory_path` for writing succeeds in the
  iteration for a process. -/
  fopen_root_memory : pid_t → Bool

/-- The fields of `struct cgroup_context` that the source reads. -/
structure cgroup_context where
  cgroup_path : List Char
  cgroup_name : List Char
  freezer_path : List Char
  deriving DecidableEq

/-- Observable effects, in program order. Every `slog` call of the source has
priority `LOG_ALERT`. -/
inductive Effect where
  /-- The alert `Error opening cgroup directory: <cgpath>`. -/
  | slog_opendir (cgpath : List Char)
  /-- The alert `<fn>(): stat() error code: <strerror(errno)> on <tmp_path>`. -/
  | slog_stat (fn : List Char) (errno : Nat) (tmp_path : List Char)
  /-- The alert `killing UID:<uid> PID <pid>; cgroups: <cgroups>`. -/
  | slog_killing (uid : uid_t) (pid : pid_t) (cgroups : List Char)
  /-- The call `cgroup_attach_task_pid(cgc->purgatory, pid)`. -/
  | cgroup_attach_task_pid (pid : pid_t)
  /-- The call `kill(pid, SIGKILL)`. -/
  | kill (pid : pid_t)
  /-- The PID written to `root_memory` by `fprintf`, and the `fclose`. -/
  | fprintf_root_memory (pid : pid_t)
  /-- The PID written to `root_freezer` by `fprintf`, and the `fclose`. -/
  | fprintf_root_freezer (pid : pid_t)
  deriving DecidableEq

/-! ## The cgroup directory tree -/

mutual
/-- A cgroup directory as the walk sees it: the content of its `tasks` file
(`none` when it cannot be opened) and the entries `readdir` returns (`none`
when `opendir` returns `NULL`). -/
inductive CgDir where
  | mk (tasks : Option (List Char)) (cgd : Option (List Dirent))
/-- A directory entry together with what `stat` reports for
`<cgpath>/<d_name>/`. -/
inductive Dirent where
  /-- The call of `stat` fails with the given `errno`. -/
  | stat_error (d_name : List Char) (errno : Nat)
  /-- The call of `stat` succeeds and `S_ISDIR` is false. -/
  | stat_other (d_name : List Char)
  /-- The call of `stat` succeeds and `S_ISDIR` is true; `child` is the
  directory there. -/
  | stat_dir (d_name : List Char) (child : CgDir)
end

/-- The state a subtree walk threads: its output parameter, the log written
so far, and whether undefined behaviour was reached. -/
structure Walk (α : Type) where
  out : α
  log : List Effect
  ub : Bool

/-! ## `std::map<uid_t, memory_t>` -/

/-- A `std::map<uid_t, memory_t>`: its entries in iteration order, which is
ascending key order. -/
abbrev user_map := List (uid_t × memory_t)

/-- The lookup `m.find(k)`: the mapped value, `none` standing for `m.end()`. -/
def map_find : user_map → uid_t → Option memory_t
  | [], _ => none
  | (k', v') :: rest, k => if k = k' then some v' else map_find rest k

/-- The assignment `m[k] = v`: insert at the key's place in the order, or overwrite. -/
def map_assign : user_map → uid_t → memory_t → user_map
  | [], k, v => [(k, v)]
  | (k', v') :: rest, k, v =>
    if k < k' then (k, v) :: (k', v') :: rest
    else if k = k' then (k, v) :: rest
    else (k', v') :: map_assign rest k v

/-- The read of `m[k]`: the mapped value, value-initialised when the key is absent. -/
def map_at (m : user_map) (k : uid_t) : memory_t :=
  (map_find m k).getD 0

/-! ## `enumerate_users` and `enumerate_tasks` -/

/-- The body of the read loop of `enumerate_users` for one PID. -/
def enumerate_users_body (w : World) (pid : pid_t) (user_list : user_map) : user_map :=
  let uid := w.get_uid pid
  let rss := w.get_rss pid
  if map_find user_list uid = none then map_assign user_list uid rss
  else map_assign user_list uid (map_at user_list uid + rss)

/-- The body of the read loop of `enumerate_tasks` for one PID. -/
def enumerate_tasks_body (w : World) (victim_uid : uid_t) (pid : pid_t)
    (cached_task_list : List pid_t) : List pid_t :=
  if w.get_uid pid = victim_uid then cached_task_list ++ [pid] else cached_task_list

/-- The path `<cgpath>/<d_name>/` built by `asprintf`. -/
def tmp_path (cgpath d_name : List Char) : List Char :=
  cgpath ++ ['/'] ++ d_name ++ ['/']

mutual
/-- The function `enumerate_users(cgpath, user_list)` on the directory at `cgpath`. -/
def enumerate_users (w : World) (cgpath : List Char) : CgDir → Walk user_map → Walk user_map
  | CgDir.mk tasks cgd, st =>
    let st1 : Walk user_map :=
      { st with out := task_list_loop (enumerate_users_body w) (task_list_fuel tasks)
                  (ifstream_open tasks) 0 st.out }
    match cgd with
    | none => { st1 with log := st1.log ++ [Effect.slog_opendir cgpath], ub := true }
    | some des => enumerate_users_readdir w cgpath des st1
/-- The `while((de=readdir(cgd))!=NULL)` loop of `enumerate_users`. -/
def enumerate_users_readdir (w : World) (cgpath : List Char) :
    List Dirent → Walk user_map → Walk user_map
  | [], st => st
  | Dirent.stat_error d_name errno :: rest, st =>
    if errno ≠ ENOTDIR then
      enumerate_users_readdir w cgpath rest
        { st with log := st.log ++
            [Effect.slog_stat "enumerate_users".toList errno (tmp_path cgpath d_name)] }
    else enumerate_users_readdir w cgpath rest st
  | Dirent.stat_other _ :: rest, st => enumerate_users_readdir w cgpath rest st
  | Dirent.stat_dir d_name child :: rest, st =>
    if d_name.head? ≠ some '.' then
      let st1 := enumerate_users w (tmp_path cgpath d_name) child st
      if st1.ub then st1 else enumerate_users_readdir w cgpath rest st1
    else enumerate_users_readdir w cgpath rest st
end

mutual
/-- The function `enumerate_tasks(cgpath, victim_uid, cached_task_list)` on the
directory at `cgpath`. -/
def enumerate_tasks (w : World) (cgpath : List Char) (victim_uid : uid_t) :
    CgDir → Walk (List pid_t) → Walk (List pid_t)
  | CgDir.mk tasks cgd, st =>
    let st1 : Walk (List pid_t) :=
      { st with out := task_list_loop (enumerate_tasks_body w victim_uid) (task_list_fuel tasks)
                  (ifstream_open tasks) 0 st.out }
    match cgd with
    | none => { st1 with log := st1.log ++ [Effect.slog_opendir cgpath], ub := true }
    | some des => enumerate_tasks_readdir w cgpath victim_uid des st1
/-- The `while((de=readdir(cgd))!=NULL)` loop of `enumerate_tasks`. -/
def enumerate_tasks_readdir (w : World) (cgpath : List Char) (victim_uid : uid_t) :
    List Dirent → Walk (List pid_t) → Walk (List pid_t)
  | [], st => st
  | Dirent.stat_error d_name errno :: rest, st =>
    if errno ≠ ENOTDIR then
      enumerate_tasks_readdir w cgpath victim_uid rest
        { st with log := st.log ++
            [Effect.slog_stat "enumerate_tasks".toList errno (tmp_path cgpath d_name)] }
    else enumerate_tasks_readdir w cgpath victim_uid rest st
  | Dirent.stat_other _ :: rest, st => enumerate_tasks_readdir w cgpath victim_uid rest st
  | Dirent.stat_dir d_name child :: rest, st =>
    if d_name.head? ≠ some '.' then
      let st1 := enumerate_tasks w (tmp_path cgpath d_name) victim_uid child st
      if st1.ub then st1 else enumerate_tasks_readdir w cgpath victim_uid rest st1
    else enumerate_tasks_readdir w cgpath victim_uid rest st
end


/-! ## The kill phase -/

/-- The value `std::string::npos`, the largest `size_t`. -/
def npos : Nat := 2 ^ 64 - 1

/-- The method `token.find_first_of(c)`: the position of the first occurrence of
the character, `npos` when there is none. -/
def find_first_of (token : List Char) (c : Char) : Nat :=
  if c ∈ token then token.indexOf c else npos

/-- The test `token.find(pat) != std::string::npos`: the pattern occurs in the
token. -/
def has_substring : List Char → List Char → Bool
  | [], pat => pat.isEmpty
  | c :: cs, pat => pat.isPrefixOf (c :: cs) || has_substring cs pat

/-- The `while(gcl.good())` loop of `get_cgroup_from_pid`: each token loses what
precedes its first colon; when `memory:/` occurs in the rest, what follows the
first colon of the rest is appended to `result`, with a semicolon. When the
fuel runs out `result` is returned as it is; `task_list_fuel` is always
enough. -/
def get_cgroup_from_pid_loop : Nat → ifstream → List Char → List Char
  | 0, _, result => result
  | fuel + 1, gcl, result =>
    if gcl.good then
      let r := read_string gcl
      let token := r.2.drop (find_first_of r.2 ':')
      if has_substring token "memory:/".toList then
        let delim := find_first_of token ':'
        if (delim + 1) % 2 ^ 64 > token.length then
          get_cgroup_from_pid_loop fuel r.1 (result ++ "/;".toList)
        else
          get_cgroup_from_pid_loop fuel r.1
            (result ++ token.drop ((delim + 1) % 2 ^ 64) ++ ";".toList)
      else get_cgroup_from_pid_loop fuel r.1 result
    else result

/-- The function `get_cgroup_from_pid(pid, result)`: the new value of `result`.
The stream operations used raise no exception, so the handler is not
modelled. -/
def get_cgroup_from_pid (w : World) (pid : pid_t) (result : List Char) : List Char :=
  get_cgroup_from_pid_loop (task_list_fuel (w.proc_cgroup pid))
    (ifstream_open (w.proc_cgroup pid)) result

/-- The function `get_pid_state(pid, state)`: `fscanf` skips two
whitespace-delimited fields of `/proc/<pid>/stat` and stores the first
character of the third in `state`, which keeps its old value when the file
ends before; the function returns 0. The result is `none` when `fopen` returns
`NULL`, which `fscanf` then dereferences. No function of the file calls it. -/
def get_pid_state (w : World) (pid : pid_t) (state : Char) : Option (Int × Char) :=
  match w.proc_stat pid with
  | none => none
  | some content =>
    let r := read_string (read_string (ifstream_open (some content))).1
    if r.1.good then
      match r.1.buf.dropWhile isspace with
      | [] => some (0, state)
      | c :: _ => some (0, c)
    else some (0, state)

/-- The function `sigkill_victim(pid)`: the log line, then the test of
`pid_state`, then `kill(pid, SIGKILL)`. -/
def sigkill_victim (w : World) (pid : pid_t) : List Effect :=
  let victim_uid := w.get_uid pid
  let cgroups := get_cgroup_from_pid w pid []
  Effect.slog_killing victim_uid pid cgroups ::
    (if w.pid_state = 'D' ∨ w.pid_state = 'Z' then [] else [Effect.kill pid])

/-- A run of the kill phase: the effects so far and whether undefined
behaviour was reached. -/
structure Run where
  trace : List Effect
  ub : Bool
  deriving DecidableEq

/-- The second loop of `kill_victim` (lines 191-202): both files are opened,
the process is signalled, then the PID is written to `root_memory` and to
`root_freezer`. Neither `FILE*` is tested, and `fprintf` on a null stream is
undefined behaviour. -/
def kill_victim_loop (w : World) : List pid_t → Run → Run
  | [], r => r
  | i :: rest, r =>
    let root_freezer := w.fopen_root_freezer i
    let root_memory := w.fopen_root_memory i
    let t1 := r.trace ++ sigkill_victim w i
    if !root_memory then { trace := t1, ub := true }
    else
      let t2 := t1 ++ [Effect.fprintf_root_memory i]
      if !root_freezer then { trace := t2, ub := true }
      else kill_victim_loop w rest { trace := t2 ++ [Effect.fprintf_root_freezer i], ub := r.ub }

/-- The path `/<cgroup_path>/<cgroup_name>/` built from the context. -/
def context_cgpath (cgc : cgroup_context) : List Char :=
  ['/'] ++ cgc.cgroup_path ++ ['/'] ++ cgc.cgroup_name ++ ['/']

/-- The snapshot walk `kill_victim` starts with: `enumerate_tasks` on the
subtree of the context, into an empty `cached_task_list`. -/
def kill_victim_snapshot (w : World) (cgc : cgroup_context) (root : CgDir)
    (victim_uid : uid_t) : Walk (List pid_t) :=
  enumerate_tasks w (context_cgpath cgc) victim_uid root { out := [], log := [], ub := false }

/-- The function `kill_victim(cgc, victim_uid)`, `root` being the directory at
`/<cgroup_path>/<cgroup_name>/`. -/
def kill_victim (w : World) (cgc : cgroup_context) (root : CgDir) (victim_uid : uid_t) : Run :=
  let snap := kill_victim_snapshot w cgc root victim_uid
  if snap.ub then { trace := snap.log, ub := true }
  else
    kill_victim_loop w snap.out
      { trace := snap.log ++ snap.out.map Effect.cgroup_attach_task_pid, ub := false }

/-! ## `find_victim` -/

/-- The selection loop of `find_victim` (lines 336-345) over the entries of
the map in iteration order. -/
def find_victim_loop : user_map → memory_t → uid_t → uid_t
  | [], _, max_uid => max_uid
  | (uid, rss) :: rest, max, max_uid =>
    if rss > max then find_victim_loop rest rss uid
    else find_victim_loop rest max max_uid

/-- The UID `find_victim` selects from a non-empty map: `max` and `max_uid`
start at `user_list.begin()` and the loop runs over the whole map. The source
does not get here with an empty map; 0 stands for that case. -/
def find_victim_max_uid (user_list : user_map) : uid_t :=
  match user_list with
  | [] => 0
  | (uid, rss) :: _ => find_victim_loop user_list rss uid

/-- The aggregation walk `find_victim` starts with: `enumerate_users` on the
subtree of the context, into an empty `user_list`. -/
def find_victim_users (w : World) (cgc : cgroup_context) (root : CgDir) : Walk user_map :=
  enumerate_users w (context_cgpath cgc) root { out := [], log := [], ub := false }

/-- What a call of `find_victim` does: the value it returns (`none` when the
run reaches undefined behaviour and does not return) and its effects. -/
structure FindVictim where
  ret : Option Int
  trace : List Effect
  deriving DecidableEq

/-- The function `find_victim(cgc)`, `root` being the directory at
`/<cgroup_path>/<cgroup_name>/`. -/
def find_victim (w : World) (cgc : cgroup_context) (root : CgDir) : FindVictim :=
  let users := find_victim_users w cgc root
  if users.ub then { ret := none, trace := users.log }
  else if users.out.length < 1 then { ret := some (-1), trace := users.log }
  else
    let k := kill_victim w cgc root (find_victim_max_uid users.out)
    { ret := if k.ub then none else some 0, trace := users.log ++ k.trace }


/-! ## The specification's view of a subtree -/

/-- A cgroup subtree as the specification's data model has it: a finite tree
whose nodes each list the PIDs assigned directly at that level. -/
inductive Cgroup where
  | mk (tasks : List Nat) (children : List Cgroup)

mutual
/-- Every PID listed in the subtree, at every depth, in traversal order: a
node's own task list in file order, then its children in order. -/
def Cgroup.pids : Cgroup → List Nat
  | Cgroup.mk tasks children => tasks ++ Cgroup.pids_of_list children
/-- The PIDs of a list of subtrees, in order. -/
def Cgroup.pids_of_list : List Cgroup → List Nat
  | [] => []
  | c :: cs => c.pids ++ Cgroup.pids_of_list cs
end

/-- The content of a `tasks` file in the kernel's format: each PID in decimal,
followed by a newline. -/
def kernel_tasks : List Nat → List Char
  | [] => []
  | p :: ps => Nat.toDigits 10 p ++ '\n' :: kernel_tasks ps

mutual
/-- The directory tree `d` is a filesystem view of the cgroup subtree `g`:
every directory can be opened, its `tasks` file holds the node's PIDs (which
are `pid_t` values) in the kernel's format, and its entries are, in order, the
node's children (directories whose name does not begin with a period) mixed
with entries that are no cgroup: names beginning with a period (`.`, `..`),
and entries `stat` fails on or reports as something other than a directory
(the control files). -/
def realizes : CgDir → Cgroup → Bool
  | CgDir.mk tasks cgd, g =>
    match g, cgd with
    | _, none => false
    | Cgroup.mk pids children, some des =>
      decide (tasks.getD [] = kernel_tasks pids) &&
        pids.all (fun p => decide ((p : Int) ≤ INT_MAX)) &&
        realizes_entries des children
/-- The entries of a directory are a view of the given children. -/
def realizes_entries : List Dirent → List Cgroup → Bool
  | [], cs => cs.isEmpty
  | Dirent.stat_error _ _ :: rest, cs => realizes_entries rest cs
  | Dirent.stat_other _ :: rest, cs => realizes_entries rest cs
  | Dirent.stat_dir d_name child :: rest, cs =>
    if d_name.head? = some '.' then realizes_entries rest cs
    else
      match cs with
      | [] => false
      | c :: cs' => realizes child c && realizes_entries rest cs'
end

/-- The PIDs of a list that a UID owns, in order. -/
def owned_by (w : World) (uid : uid_t) (pids : List Nat) : List Nat :=
  pids.filter (fun p => decide (w.get_uid (p : Int) = uid))

/-- The sum of the resident set sizes of the PIDs of a list that a UID owns. -/
def rss_sum (w : World) (uid : uid_t) (pids : List Nat) : memory_t :=
  ((owned_by w uid pids).map (fun p => w.get_rss (p : Int))).sum

/-- The effect is a quarantine attach. -/
def Effect.is_attach : Effect → Bool
  | Effect.cgroup_attach_task_pid _ => true
  | _ => false

/-- The effect is a termination signal. -/
def Effect.is_kill : Effect → Bool
  | Effect.kill _ => true
  | _ => false

/-- The effect is a log entry. -/
def Effect.is_slog : Effect → Bool
  | Effect.slog_opendir _ => true
  | Effect.slog_stat _ _ _ => true
  | Effect.slog_killing _ _ _ => true
  | _ => false

/-- The process an effect of the kill phase acts on or reports. -/
def Effect.pid : Effect → Option pid_t
  | Effect.slog_killing _ pid _ => some pid
  | Effect.cgroup_attach_task_pid pid => some pid
  | Effect.kill pid => some pid
  | Effect.fprintf_root_memory pid => some pid
  | Effect.fprintf_root_freezer pid => some pid
  | _ => none


/-! ## The text of a task list -/

/-- All characters are whitespace. -/
def is_blank (s : List Char) : Bool := s.all isspace

/-- A PID as text: a non-empty run of decimal digits whose value is a `pid_t`. -/
def is_pid_text (d : List Char) : Bool :=
  !d.isEmpty && d.all isdigit && decide ((decimal_value d : Int) ≤ INT_MAX)

/-- PIDs as text, each followed by the whitespace that separates it from what
comes next. -/
def items_text : List (List Char × List Char) → List Char
  | [] => []
  | i :: rest => i.1 ++ i.2 ++ items_text rest


/-! ## Invariants -/

/-- The entries of a map are in strictly ascending key order. -/
def map_sorted (m : user_map) : Prop := m.Pairwise (fun a b => a.1 < b.1)

/-- The map holds, for the PIDs accounted so far, one entry per owning UID with
the sum of that UID's resident set sizes. -/
def aggregates (w : World) (m : user_map) (pids : List Nat) : Prop :=
  map_sorted m ∧
    ∀ uid, map_find m uid =
      if owned_by w uid pids = [] then none else some (rss_sum w uid pids)

/-- What the walk of `enumerate_users` keeps true: the map is in ascending key
order and the log holds log entries only. -/
def users_invariant (st : Walk user_map) : Prop :=
  map_sorted st.out ∧ ∀ e ∈ st.log, e.is_slog = true

/-! ## Scenarios -/

/-- Scenario A of the specification: UID 1000 owns PIDs 10 (RSS 100) and 11
(RSS 200), UID 2000 owns PID 20 (RSS 50); every process is runnable and both
root task lists can be opened. -/
def scenario_world : World where
  get_uid := fun p => if p = 10 ∨ p = 11 then 1000 else 2000
  get_rss := fun p => if p = 10 then 100 else if p = 11 then 200 else 50
  proc_cgroup := fun _ => some "4:memory:/users\n3:freezer:/\n".toList
  proc_stat := fun _ => some "10 (stress) R 1 10 10 0 -1".toList
  pid_state := 'R'
  fopen_root_freezer := fun _ => true
  fopen_root_memory := fun _ => true

/-- The context of the scenarios. -/
def scenario_context : cgroup_context where
  cgroup_path := "cgroup/memory".toList
  cgroup_name := "users".toList
  freezer_path := "cgroup/freezer".toList

/-- The subtree of scenario A: PID 10 at the root, PIDs 11 and 20 in the child
cgroup `a`. -/
def scenario_cgroup : Cgroup :=
  Cgroup.mk [10] [Cgroup.mk [11, 20] []]

/-- The directory tree of scenario A as the walk reads it. -/
def scenario_root : CgDir :=
  CgDir.mk (some "10\n".toList)
    (some [Dirent.stat_dir ".".toList (CgDir.mk none none),
           Dirent.stat_dir "..".toList (CgDir.mk none none),
           Dirent.stat_error "tasks".toList ENOTDIR,
           Dirent.stat_error "memory.oom_control".toList ENOTDIR,
           Dirent.stat_dir "a".toList
             (CgDir.mk (some "11\n20\n".toList)
               (some [Dirent.stat_error "tasks".toList ENOTDIR]))])

/-- Scenario A with every process a zombie according to `/proc/<pid>/stat`. -/
def zombie_world : World :=
  { scenario_world with proc_stat := fun _ => some "10 (stress) Z 1 10 10 0 -1".toList }

/-- Scenario A with the root memory-controller task list unopenable in the
iteration for PID 10. -/
def unopenable_world : World :=
  { scenario_world with fopen_root_memory := fun p => decide (p ≠ 10) }


/-- Scenario A with `pid_state` holding `D` while every process is runnable. -/
def stale_state_world : World :=
  { scenario_world with pid_state := 'D' }

/-! # Theorems -/

theorem head_dropWhile_isspace {b : List Char} {c : Char} {cs : List Char}
    (h : b.dropWhile isspace = c :: cs) : isspace c = false := by
  have := List.head_dropWhile_not isspace b (by rw [h]; simp)
  simpa [h] using this

theorem length_dropWhile_le (p : Char → Bool) (b : List Char) :
    (b.dropWhile p).length ≤ b.length := by
  induction b with
  | nil => simp
  | cons x xs ih =>
    simp only [List.dropWhile_cons]
    split
    · simp; omega
    · simp

theorem tokens_from_cur (xs cur : List Char) (h : cur ≠ []) :
    tokens_from xs cur =
      (cur ++ xs.takeWhile (fun x => !isspace x)) ::
        tokens_from (xs.dropWhile (fun x => !isspace x)) [] := by
  induction xs generalizing cur with
  | nil => simp [tokens_from, h]
  | cons c cs ih =>
    by_cases hc : isspace c = true
    · simp [tokens_from, hc, h]
    · have hc2 : isspace c = false := by simpa using hc
      simp [tokens_from, hc2, ih (cur ++ [c]) (by simp)]

theorem tokens_from_dropWhile (xs : List Char) :
    tokens_from xs [] = tokens_from (xs.dropWhile isspace) [] := by
  induction xs with
  | nil => rfl
  | cons c cs ih =>
    by_cases hc : isspace c = true
    · simp [tokens_from, hc, ih]
    · have hc2 : isspace c = false := by simpa using hc
      simp [List.dropWhile_cons, hc2]

theorem tokens_from_token (c : Char) (cs : List Char) (hc : isspace c = false) :
    tokens_from (c :: cs) [] =
      (c :: cs).takeWhile (fun x => !isspace x) ::
        tokens_from ((c :: cs).dropWhile (fun x => !isspace x)) [] := by
  simp [tokens_from, hc, tokens_from_cur cs [c] (by simp)]

theorem is_oom_loop_no_key (fuel : Nat) (oc : ifstream) (isoom : Int)
    (hkey : under_oom ∉ tokens_from oc.buf [])
    (hfuel : (if oc.good then oc.buf.length + 1 else 0) < fuel) :
    is_oom_loop fuel oc isoom = some isoom := by
  induction fuel generalizing oc with
  | zero => omega
  | succ fuel ih =>
    unfold is_oom_loop
    by_cases hg : oc.good = true
    · simp only [hg, if_true] at hfuel ⊢
      rw [tokens_from_dropWhile] at hkey
      have hlen := length_dropWhile_le isspace oc.buf
      cases hb : oc.buf.dropWhile isspace with
      | nil =>
        have hr : read_string oc = ({ buf := [], eofbit := true, failbit := true }, []) := by
          simp [read_string, hg, hb]
        rw [hr]
        have : ¬ (([] : List Char) = under_oom) := by decide
        simp only [this, if_false]
        apply ih
        · simp [tokens_from]
        · simp [ifstream.good]; omega
      | cons c cs =>
        have hc := head_dropWhile_isspace hb
        rw [hb, tokens_from_token c cs hc] at hkey
        have hr : read_string oc =
            ({ buf := (c :: cs).dropWhile (fun x => !isspace x),
               eofbit := ((c :: cs).dropWhile (fun x => !isspace x)).isEmpty,
               failbit := false },
              (c :: cs).takeWhile (fun x => !isspace x)) := by
          simp [read_string, hg, hb]
        rw [hr]
        simp only [List.mem_cons, not_or] at hkey
        have hne : ¬ ((c :: cs).takeWhile (fun x => !isspace x) = under_oom) :=
          fun h => hkey.1 h.symm
        simp only [hne, if_false]
        apply ih
        · exact hkey.2
        · have h1 : ((c :: cs).dropWhile (fun x => !isspace x)).length ≤ cs.length := by
            simp only [List.dropWhile_cons, hc, Bool.not_false, if_true]
            exact length_dropWhile_le _ cs
          have h2 : (c :: cs).length ≤ oc.buf.length := by rw [← hb]; exact hlen
          simp only [List.length_cons] at h2
          split <;> simp <;> omega
    · simp [hg]

/-- C7: when the key `under_oom` is not among the tokens of
`memory.oom_control` (or the file cannot be opened), `is_oom` run with enough
fuel for the file's length reaches `abort()`: it returns neither 0 nor 1. -/
theorem is_oom_aborts_without_key (file : Option (List Char)) (fuel : Nat)
    (hkey : under_oom ∉ tokens file) (hfuel : (file.getD []).length + 2 ≤ fuel) :
    is_oom fuel file = some Outcome.aborted := by
  have hloop : is_oom_loop fuel (ifstream_open file) (-1) = some (-1) := by
    apply is_oom_loop_no_key
    · cases file with
      | none => simp [ifstream_open, tokens_from]
      | some content => simpa [ifstream_open, tokens] using hkey
    · cases file with
      | none => simp [ifstream_open, ifstream.good]; omega
      | some content =>
        simp only [ifstream_open, Option.getD_some] at hfuel ⊢
        split <;> omega
  simp [is_oom, hloop]

/-- C7 at the content `oom_kill_disable 0`, which has no `under_oom` token. -/
theorem is_oom_aborts_without_key_witness :
    under_oom ∉ tokens (some "oom_kill_disable 0\n".toList) ∧
      ((some "oom_kill_disable 0\n".toList : Option (List Char)).getD []).length + 2 ≤ 21 ∧
      is_oom 21 (some "oom_kill_disable 0\n".toList) = some Outcome.aborted :=
  ⟨by decide, by decide,
    is_oom_aborts_without_key (some "oom_kill_disable 0\n".toList) 21 (by decide) (by decide)⟩

/-- C1: on the content `under_oom 0` the flag is read into a `char`, which
then holds the character code of `0` and is not zero, so `is_oom` returns 1
where the claim has 0; the same holds for the kernel's two-line file. On
`under_oom 1` it returns 1 as well. -/
theorem is_oom_under_oom_zero_returns_one :
    is_oom 13 (some "under_oom 0".toList) = some (Outcome.returned 1) ∧
      is_oom 32 (some "oom_kill_disable 0\nunder_oom 0\n".toList) = some (Outcome.returned 1) ∧
      tokens (some "under_oom 0".toList) = [under_oom, ['0']] ∧
      is_oom 13 (some "under_oom 1".toList) = some (Outcome.returned 1) := by
  decide

/-! ## The read loop -/

theorem isdigit_not_isspace {c : Char} (h : isdigit c = true) : isspace c = false := by
  simp only [isdigit, Bool.and_eq_true, decide_eq_true_eq] at h
  simp only [isspace, Bool.or_eq_false_iff, decide_eq_false_iff_not, Bool.and_eq_false_iff]
  omega

theorem isspace_not_isdigit {c : Char} (h : isspace c = true) : isdigit c = false := by
  cases hd : isdigit c with
  | false => rfl
  | true => rw [isdigit_not_isspace hd] at h; cases h

theorem isdigit_not_sign {c : Char} (h : isdigit c = true) : ¬ (c = '-' ∨ c = '+') := by
  rintro (rfl | rfl) <;> revert h <;> decide

theorem dropWhile_append_all (p : Char → Bool) (l r : List Char) (h : l.all p = true) :
    (l ++ r).dropWhile p = r.dropWhile p := by
  induction l with
  | nil => rfl
  | cons x xs ih =>
    simp only [List.all_cons, Bool.and_eq_true] at h
    simp [List.dropWhile_cons, h.1, ih h.2]

theorem takeWhile_append_all (p : Char → Bool) (l r : List Char) (h : l.all p = true) :
    (l ++ r).takeWhile p = l ++ r.takeWhile p := by
  induction l with
  | nil => rfl
  | cons x xs ih =>
    simp only [List.all_cons, Bool.and_eq_true] at h
    simp [List.takeWhile_cons, h.1, ih h.2]

/-- Reading an `int` from a stream whose text is whitespace, a PID, and a rest
that starts with whitespace: the PID is stored and the stream stays good. -/
theorem read_int_pid (lead d s rest : List Char) (old : Int)
    (hlead : is_blank lead = true) (hd : is_pid_text d = true)
    (hs : s ≠ []) (hsb : is_blank s = true) :
    read_int { buf := lead ++ (d ++ s ++ rest), eofbit := false, failbit := false } old =
      ({ buf := s ++ rest, eofbit := false, failbit := false }, (decimal_value d : Int)) := by
  simp only [is_pid_text, Bool.and_eq_true, decide_eq_true_eq, Bool.not_eq_true',
    List.isEmpty_eq_false] at hd
  obtain ⟨⟨hne, hdig⟩, hmax⟩ := hd
  cases d with
  | nil => exact absurd rfl hne
  | cons c cs =>
    cases s with
    | nil => exact absurd rfl hs
    | cons x xs =>
      have hc : isdigit c = true := by
        simp only [List.all_cons, Bool.and_eq_true] at hdig; exact hdig.1
      have hx : isspace x = true := by
        simp only [is_blank, List.all_cons, Bool.and_eq_true] at hsb; exact hsb.1
      have hdrop : (lead ++ (c :: cs ++ x :: xs ++ rest)).dropWhile isspace =
          c :: (cs ++ x :: xs ++ rest) := by
        rw [dropWhile_append_all isspace _ _ hlead]
        simp [List.dropWhile_cons, isdigit_not_isspace hc]
      have hsign := isdigit_not_sign hc
      have htake : (c :: (cs ++ x :: xs ++ rest)).takeWhile isdigit = c :: cs := by
        have := takeWhile_append_all isdigit (c :: cs) (x :: xs ++ rest) hdig
        simpa [List.takeWhile_cons, isspace_not_isdigit hx] using this
      have hdrop2 : (c :: (cs ++ x :: xs ++ rest)).dropWhile isdigit = x :: xs ++ rest := by
        have := dropWhile_append_all isdigit (c :: cs) (x :: xs ++ rest) hdig
        simpa [List.dropWhile_cons, isspace_not_isdigit hx] using this
      have hneg : c ≠ '-' := fun h => hsign (Or.inl h)
      have hplus : c ≠ '+' := fun h => hsign (Or.inr h)
      have hmin : ¬ ((decimal_value (c :: cs) : Int) < INT_MIN) := by
        have : (0 : Int) ≤ (decimal_value (c :: cs) : Int) := Int.ofNat_nonneg _
        unfold INT_MIN; omega
      unfold read_int
      simp only [ifstream.good, Bool.not_false, Bool.and_self, if_true]
      rw [hdrop]
      simp only [hneg, hplus, or_self, if_false, htake, hdrop2]
      simp [not_lt.mpr hmax, hmin]

/-- Reading an `int` at the end of the task list (only whitespace and then
either nothing or digits that nothing follows) leaves the stream not good. -/
theorem read_int_end (lead last : List Char) (old : Int)
    (hlead : is_blank lead = true) (hlast : last.all isdigit = true) :
    (read_int { buf := lead ++ last, eofbit := false, failbit := false } old).1.good = false := by
  cases last with
  | nil =>
    have hdrop : (lead ++ []).dropWhile isspace = [] := by
      simpa using dropWhile_append_all isspace lead [] hlead
    unfold read_int
    simp only [ifstream.good, Bool.not_false, Bool.and_self, if_true]
    rw [hdrop]
    simp
  | cons c cs =>
    have hc : isdigit c = true := by
      simp only [List.all_cons, Bool.and_eq_true] at hlast; exact hlast.1
    have hdrop : (lead ++ c :: cs).dropWhile isspace = c :: cs := by
      rw [dropWhile_append_all isspace _ _ hlead]
      simp [List.dropWhile_cons, isdigit_not_isspace hc]
    have hsign := isdigit_not_sign hc
    have hdrop2 : (c :: cs).dropWhile isdigit = [] := by
      simpa using dropWhile_append_all isdigit (c :: cs) [] hlast
    unfold read_int
    simp only [ifstream.good, Bool.not_false, Bool.and_self, if_true]
    rw [hdrop]
    simp only [hsign, if_false, hdrop2]
    split_ifs <;> simp

theorem task_list_loop_items {σ : Type} (body : pid_t → σ → σ)
    (items : List (List Char × List Char)) :
    ∀ (lead last : List Char) (fuel : Nat) (pid0 : pid_t) (acc : σ),
      is_blank lead = true →
      (∀ i ∈ items, is_pid_text i.1 = true ∧ i.2 ≠ [] ∧ is_blank i.2 = true) →
      last.all isdigit = true →
      (lead ++ (items_text items ++ last)).length + 2 ≤ fuel →
      task_list_loop body fuel
          { buf := lead ++ (items_text items ++ last), eofbit := false, failbit := false }
          pid0 acc =
        (items.map (fun i => (decimal_value i.1 : Int))).foldl (fun a p => body p a) acc := by
  induction items with
  | nil =>
    intro lead last fuel pid0 acc hlead _ hlast hfuel
    obtain ⟨f, rfl⟩ : ∃ f, fuel = f + 1 := ⟨fuel - 1, by omega⟩
    have h := read_int_end lead last pid0 hlead hlast
    simp only [items_text, List.nil_append] at hfuel ⊢
    unfold task_list_loop
    have hg : ifstream.good { buf := lead ++ last, eofbit := false, failbit := false } = true := rfl
    simp only [hg, if_true, h]
    simp
  | cons i rest ih =>
    intro lead last fuel pid0 acc hlead hitems hlast hfuel
    obtain ⟨f, rfl⟩ : ∃ f, fuel = f + 1 := ⟨fuel - 1, by omega⟩
    obtain ⟨hd, hs, hsb⟩ := hitems i (List.mem_cons_self _ _)
    have hr := read_int_pid lead i.1 i.2 (items_text rest ++ last) pid0 hlead hd hs hsb
    have hbuf : lead ++ (items_text (i :: rest) ++ last) =
        lead ++ (i.1 ++ i.2 ++ (items_text rest ++ last)) := by
      simp [items_text, List.append_assoc]
    rw [hbuf] at hfuel ⊢
    unfold task_list_loop
    simp only [ifstream.good, Bool.not_false, Bool.and_self, if_true, hr,
      Bool.not_true, Bool.false_eq_true, if_false]
    rw [ih i.2 last f _ _ hsb (fun j hj => hitems j (List.mem_cons_of_mem _ hj)) hlast]
    · simp
    · have : 0 < i.1.length := by
        cases h1 : i.1 with
        | nil => rw [h1] at hd; simp [is_pid_text] at hd
        | cons _ _ => simp
      simp only [List.length_append] at hfuel ⊢
      omega

/-- C10: on a task list made of whitespace-separated decimal PIDs the read
loop shared by `enumerate_users` and `enumerate_tasks` runs its body, in file
order, on exactly the PIDs that whitespace follows; digits at the very end of
the file that nothing follows (`last`) are not processed, and when the file
ends with whitespace (`last` empty) every PID is processed once. -/
theorem task_list_loop_processes_followed_pids {σ : Type} (body : pid_t → σ → σ)
    (lead : List Char) (items : List (List Char × List Char)) (last : List Char)
    (fuel : Nat) (pid0 : pid_t) (acc : σ)
    (hlead : is_blank lead = true)
    (hitems : ∀ i ∈ items, is_pid_text i.1 = true ∧ i.2 ≠ [] ∧ is_blank i.2 = true)
    (hlast : last.all isdigit = true)
    (hfuel : task_list_fuel (some (lead ++ items_text items ++ last)) ≤ fuel) :
    task_list_loop body fuel (ifstream_open (some (lead ++ items_text items ++ last))) pid0 acc =
      (items.map (fun i => (decimal_value i.1 : Int))).foldl (fun a p => body p a) acc := by
  have h := task_list_loop_items body items lead last fuel pid0 acc hlead hitems hlast
    (by simpa [task_list_fuel, List.append_assoc] using hfuel)
  simpa [ifstream_open, List.append_assoc] using h

/-- C10 on the file `10\n11`: PID 10, which a newline follows, is processed,
and 11, which ends the file, is not. -/
theorem task_list_loop_processes_followed_pids_witness :
    task_list_loop (fun p (l : List pid_t) => l ++ [p]) 7
        (ifstream_open (some "10\n11".toList)) 0 [] = [10] :=
  (task_list_loop_processes_followed_pids (fun p (l : List pid_t) => l ++ [p])
    [] [("10".toList, "\n".toList)] "11".toList 7 0 [] (by decide) (by decide) (by decide)
    (by decide)).trans (by decide)

/-! ## Task lists in the kernel's format -/

theorem digitChar_isdigit (k : Nat) (h : k < 10) :
    isdigit (Nat.digitChar k) = true ∧ digit_value (Nat.digitChar k) = k := by
  interval_cases k <;> decide

theorem decimal_value_append (l : List Char) (c : Char) :
    decimal_value (l ++ [c]) = 10 * decimal_value l + digit_value c := by
  simp [decimal_value, List.foldl_append]

theorem toDigitsCore_spec (fuel : Nat) :
    ∀ (n : Nat) (ds : List Char), n < fuel →
      ∃ l, Nat.toDigitsCore 10 fuel n ds = l ++ ds ∧ l ≠ [] ∧ l.all isdigit = true ∧
        decimal_value l = n := by
  induction fuel with
  | zero => intro n ds h; omega
  | succ fuel ih =>
    intro n ds h
    have hd := digitChar_isdigit (n % 10) (Nat.mod_lt _ (by decide))
    unfold Nat.toDigitsCore
    by_cases h0 : n / 10 = 0
    · refine ⟨[Nat.digitChar (n % 10)], by simp [h0], by simp, by simp [hd.1], ?_⟩
      simp only [decimal_value, List.foldl_cons, List.foldl_nil, hd.2]
      omega
    · obtain ⟨l, hl, _, hall, hval⟩ := ih (n / 10) (Nat.digitChar (n % 10) :: ds) (by omega)
      refine ⟨l ++ [Nat.digitChar (n % 10)], by simp [h0, hl], by simp, ?_, ?_⟩
      · simp [List.all_append, hall, hd.1]
      · rw [decimal_value_append, hval, hd.2]; omega

theorem toDigits_spec (n : Nat) :
    Nat.toDigits 10 n ≠ [] ∧ (Nat.toDigits 10 n).all isdigit = true ∧
      decimal_value (Nat.toDigits 10 n) = n := by
  obtain ⟨l, hl, hne, hall, hval⟩ := toDigitsCore_spec (n + 1) n [] (Nat.lt_succ_self n)
  have : Nat.toDigits 10 n = l := by simpa [Nat.toDigits] using hl
  rw [this]; exact ⟨hne, hall, hval⟩

theorem kernel_tasks_eq_items_text (pids : List Nat) :
    kernel_tasks pids = items_text (pids.map (fun p => (Nat.toDigits 10 p, ['\n']))) := by
  induction pids with
  | nil => rfl
  | cons p ps ih => simp [kernel_tasks, items_text, ih]

/-- On a `tasks` file in the kernel's format the read loop runs its body on
every PID of the file, in order. -/
theorem task_list_loop_kernel_tasks {σ : Type} (body : pid_t → σ → σ)
    (tasks : Option (List Char)) (pids : List Nat) (acc : σ)
    (htasks : tasks.getD [] = kernel_tasks pids)
    (hpids : ∀ p ∈ pids, (p : Int) ≤ INT_MAX) :
    task_list_loop body (task_list_fuel tasks) (ifstream_open tasks) 0 acc =
      (pids.map (fun (p : Nat) => (p : Int))).foldl (fun a p => body p a) acc := by
  cases tasks with
  | none =>
    cases pids with
    | nil => simp [task_list_fuel, task_list_loop, ifstream_open, ifstream.good]
    | cons p ps => simp [kernel_tasks] at htasks
  | some content =>
    simp only [Option.getD_some] at htasks
    have hc : content =
        [] ++ (items_text (pids.map (fun p => (Nat.toDigits 10 p, ['\n']))) ++ []) := by
      simp [htasks, kernel_tasks_eq_items_text]
    have h := task_list_loop_items body
      (pids.map (fun p => (Nat.toDigits 10 p, ['\n']))) [] [] (task_list_fuel (some content)) 0 acc
      (by rfl)
      (by
        intro i hi
        obtain ⟨p, hp, rfl⟩ := List.mem_map.mp hi
        obtain ⟨hne, hall, hval⟩ := toDigits_spec p
        refine ⟨?_, by simp, rfl⟩
        simp only [is_pid_text, Bool.and_eq_true, Bool.not_eq_true', List.isEmpty_eq_false,
          decide_eq_true_eq, hval]
        exact ⟨⟨hne, hall⟩, hpids p hp⟩)
      (by rfl)
      (by rw [← hc]; simp [task_list_fuel])
    rw [← hc] at h
    have ho : ifstream_open (some content) =
        { buf := content, eofbit := false, failbit := false } := rfl
    rw [ho]
    rw [h, List.map_map]
    congr 1
    apply List.map_congr_left
    intro p _
    simp [(toDigits_spec p).2.2]

/-! ## The walks on a filesystem view of a subtree -/

theorem pids_of_list_cons (c : Cgroup) (cs : List Cgroup) :
    Cgroup.pids_of_list (c :: cs) = c.pids ++ Cgroup.pids_of_list cs := by
  simp [Cgroup.pids_of_list]

theorem pids_mk (tasks : List Nat) (children : List Cgroup) :
    (Cgroup.mk tasks children).pids = tasks ++ Cgroup.pids_of_list children := by
  simp [Cgroup.pids]

theorem realizes_none (tasks : Option (List Char)) (g : Cgroup) :
    realizes (CgDir.mk tasks none) g = false := by
  cases g
  rw [realizes]

theorem realizes_some (tasks : Option (List Char)) (des : List Dirent) (pids : List Nat)
    (children : List Cgroup) :
    realizes (CgDir.mk tasks (some des)) (Cgroup.mk pids children) = true ↔
      (tasks.getD [] = kernel_tasks pids ∧ (∀ p ∈ pids, (p : Int) ≤ INT_MAX)) ∧
        realizes_entries des children = true := by
  rw [realizes]
  simp only [Bool.and_eq_true, decide_eq_true_eq, List.all_eq_true]

mutual
theorem enumerate_users_realizes (w : World) (cgpath : List Char) :
    ∀ (d : CgDir) (g : Cgroup) (st : Walk user_map), realizes d g = true → st.ub = false →
      (enumerate_users w cgpath d st).out =
          (g.pids.map (fun (p : Nat) => (p : Int))).foldl
            (fun a p => enumerate_users_body w p a) st.out ∧
        (enumerate_users w cgpath d st).ub = false
  | CgDir.mk tasks none => by
    intro g st h _
    rw [realizes_none] at h
    cases h
  | CgDir.mk tasks (some des) => by
    intro g st h hub
    cases g with
    | mk pids children =>
      rw [realizes_some] at h
      obtain ⟨⟨htasks, hpids⟩, hdes⟩ := h
      have hloop :=
        task_list_loop_kernel_tasks (enumerate_users_body w) tasks pids st.out htasks hpids
      have ih := enumerate_users_readdir_realizes w cgpath des children
        { st with out := task_list_loop (enumerate_users_body w) (task_list_fuel tasks)
                    (ifstream_open tasks) 0 st.out } hdes hub
      simp only [enumerate_users]
      refine ⟨?_, ih.2⟩
      rw [ih.1, hloop, pids_mk, List.map_append, List.foldl_append]
termination_by d => sizeOf d
theorem enumerate_users_readdir_realizes (w : World) (cgpath : List Char) :
    ∀ (des : List Dirent) (cs : List Cgroup) (st : Walk user_map),
      realizes_entries des cs = true → st.ub = false →
      (enumerate_users_readdir w cgpath des st).out =
          ((Cgroup.pids_of_list cs).map (fun (p : Nat) => (p : Int))).foldl
            (fun a p => enumerate_users_body w p a) st.out ∧
        (enumerate_users_readdir w cgpath des st).ub = false
  | [] => by
    intro cs st h hub
    simp only [realizes_entries, List.isEmpty_iff] at h
    subst h
    simp [enumerate_users_readdir, Cgroup.pids_of_list, hub]
  | Dirent.stat_error d_name errno :: rest => by
    intro cs st h hub
    simp only [realizes_entries] at h
    simp only [enumerate_users_readdir]
    split
    · exact enumerate_users_readdir_realizes w cgpath rest cs _ h hub
    · exact enumerate_users_readdir_realizes w cgpath rest cs st h hub
  | Dirent.stat_other d_name :: rest => by
    intro cs st h hub
    simp only [realizes_entries] at h
    simp only [enumerate_users_readdir]
    exact enumerate_users_readdir_realizes w cgpath rest cs st h hub
  | Dirent.stat_dir d_name child :: rest => by
    intro cs st h hub
    simp only [realizes_entries] at h
    simp only [enumerate_users_readdir]
    by_cases hdot : d_name.head? = some '.'
    · simp only [hdot, if_true] at h
      simp only [hdot, ne_eq, not_true_eq_false, if_false]
      exact enumerate_users_readdir_realizes w cgpath rest cs st h hub
    · simp only [hdot, if_false] at h
      simp only [hdot, ne_eq, not_false_eq_true, if_true]
      cases cs with
      | nil => simp at h
      | cons c cs' =>
        simp only [Bool.and_eq_true] at h
        have h1 := enumerate_users_realizes w (tmp_path cgpath d_name) child c st h.1 hub
        have h2 := enumerate_users_readdir_realizes w cgpath rest cs'
          (enumerate_users w (tmp_path cgpath d_name) child st) h.2 h1.2
        simp only [h1.2, Bool.false_eq_true, if_false]
        refine ⟨?_, h2.2⟩
        rw [h2.1, h1.1, pids_of_list_cons, List.map_append, List.foldl_append]
termination_by des => sizeOf des
end

mutual
theorem enumerate_tasks_realizes (w : World) (cgpath : List Char) (victim_uid : uid_t) :
    ∀ (d : CgDir) (g : Cgroup) (st : Walk (List pid_t)), realizes d g = true → st.ub = false →
      (enumerate_tasks w cgpath victim_uid d st).out =
          (g.pids.map (fun (p : Nat) => (p : Int))).foldl
            (fun a p => enumerate_tasks_body w victim_uid p a) st.out ∧
        (enumerate_tasks w cgpath victim_uid d st).ub = false
  | CgDir.mk tasks none => by
    intro g st h _
    rw [realizes_none] at h
    cases h
  | CgDir.mk tasks (some des) => by
    intro g st h hub
    cases g with
    | mk pids children =>
      rw [realizes_some] at h
      obtain ⟨⟨htasks, hpids⟩, hdes⟩ := h
      have hloop := task_list_loop_kernel_tasks (enumerate_tasks_body w victim_uid) tasks pids
        st.out htasks hpids
      have ih := enumerate_tasks_readdir_realizes w cgpath victim_uid des children
        { st with out := task_list_loop (enumerate_tasks_body w victim_uid) (task_list_fuel tasks)
                    (ifstream_open tasks) 0 st.out } hdes hub
      simp only [enumerate_tasks]
      refine ⟨?_, ih.2⟩
      rw [ih.1, hloop, pids_mk, List.map_append, List.foldl_append]
termination_by d => sizeOf d
theorem enumerate_tasks_readdir_realizes (w : World) (cgpath : List Char) (victim_uid : uid_t) :
    ∀ (des : List Dirent) (cs : List Cgroup) (st : Walk (List pid_t)),
      realizes_entries des cs = true → st.ub = false →
      (enumerate_tasks_readdir w cgpath victim_uid des st).out =
          ((Cgroup.pids_of_list cs).map (fun (p : Nat) => (p : Int))).foldl
            (fun a p => enumerate_tasks_body w victim_uid p a) st.out ∧
        (enumerate_tasks_readdir w cgpath victim_uid des st).ub = false
  | [] => by
    intro cs st h hub
    simp only [realizes_entries, List.isEmpty_iff] at h
    subst h
    simp [enumerate_tasks_readdir, Cgroup.pids_of_list, hub]
  | Dirent.stat_error d_name errno :: rest => by
    intro cs st h hub
    simp only [realizes_entries] at h
    simp only [enumerate_tasks_readdir]
    split
    · exact enumerate_tasks_readdir_realizes w cgpath victim_uid rest cs _ h hub
    · exact enumerate_tasks_readdir_realizes w cgpath victim_uid rest cs st h hub
  | Dirent.stat_other d_name :: rest => by
    intro cs st h hub
    simp only [realizes_entries] at h
    simp only [enumerate_tasks_readdir]
    exact enumerate_tasks_readdir_realizes w cgpath victim_uid rest cs st h hub
  | Dirent.stat_dir d_name child :: rest => by
    intro cs st h hub
    simp only [realizes_entries] at h
    simp only [enumerate_tasks_readdir]
    by_cases hdot : d_name.head? = some '.'
    · simp only [hdot, if_true] at h
      simp only [hdot, ne_eq, not_true_eq_false, if_false]
      exact enumerate_tasks_readdir_realizes w cgpath victim_uid rest cs st h hub
    · simp only [hdot, if_false] at h
      simp only [hdot, ne_eq, not_false_eq_true, if_true]
      cases cs with
      | nil => simp at h
      | cons c cs' =>
        simp only [Bool.and_eq_true] at h
        have h1 := enumerate_tasks_realizes w (tmp_path cgpath d_name) victim_uid child c st
          h.1 hub
        have h2 := enumerate_tasks_readdir_realizes w cgpath victim_uid rest cs'
          (enumerate_tasks w (tmp_path cgpath d_name) victim_uid child st) h.2 h1.2
        simp only [h1.2, Bool.false_eq_true, if_false]
        refine ⟨?_, h2.2⟩
        rw [h2.1, h1.1, pids_of_list_cons, List.map_append, List.foldl_append]
termination_by des => sizeOf des
end

/-! ## Invariants of the walks on any directory tree -/

theorem task_list_loop_invariant {σ : Type} (P : σ → Prop) (body : pid_t → σ → σ)
    (hbody : ∀ p a, P a → P (body p a)) :
    ∀ (fuel : Nat) (s : ifstream) (pid : pid_t) (acc : σ), P acc →
      P (task_list_loop body fuel s pid acc) := by
  intro fuel
  induction fuel with
  | zero => intro s pid acc h; simpa [task_list_loop] using h
  | succ fuel ih =>
    intro s pid acc h
    unfold task_list_loop
    by_cases hg : s.good = true
    · simp only [hg, if_true]
      by_cases hr : (!(read_int s pid).1.good) = true
      · simpa only [hr, if_true] using h
      · simpa only [hr, if_false] using ih _ _ _ (hbody _ _ h)
    · simpa only [hg, if_false] using h

theorem map_find_assign (m : user_map) (k : uid_t) (v : memory_t) (k' : uid_t) :
    map_find (map_assign m k v) k' = if k' = k then some v else map_find m k' := by
  induction m with
  | nil => simp [map_assign, map_find]
  | cons e rest ih =>
    obtain ⟨a, b⟩ := e
    simp only [map_assign]
    by_cases h1 : k < a
    · by_cases hk : k' = k <;> simp [h1, hk, map_find]
    · by_cases h2 : k = a
      · subst h2
        by_cases hk : k' = k <;> simp [hk, map_find]
      · by_cases hk : k' = k
        · subst hk
          simp [h1, h2, map_find, ih]
        · by_cases ha : k' = a
          · subst ha
            simp [h1, h2, hk, map_find]
          · simp [h1, h2, hk, ha, map_find, ih]

theorem mem_map_assign (m : user_map) (k : uid_t) (v : memory_t) (e : uid_t × memory_t)
    (h : e ∈ map_assign m k v) : e = (k, v) ∨ e ∈ m := by
  induction m with
  | nil => simpa [map_assign] using h
  | cons x rest ih =>
    obtain ⟨a, b⟩ := x
    simp only [map_assign] at h
    split_ifs at h with h1 h2
    · simpa using h
    · simp only [List.mem_cons] at h ⊢
      rcases h with h | h
      · exact Or.inl h
      · exact Or.inr (Or.inr h)
    · simp only [List.mem_cons] at h ⊢
      rcases h with h | h
      · exact Or.inr (Or.inl h)
      · rcases ih h with h | h
        · exact Or.inl h
        · exact Or.inr (Or.inr h)

theorem map_sorted_assign (m : user_map) (k : uid_t) (v : memory_t) (h : map_sorted m) :
    map_sorted (map_assign m k v) := by
  unfold map_sorted at h ⊢
  induction m with
  | nil => simp [map_assign]
  | cons x rest ih =>
    obtain ⟨a, b⟩ := x
    rw [List.pairwise_cons] at h
    simp only [map_assign]
    split_ifs with h1 h2
    · rw [List.pairwise_cons]
      refine ⟨?_, List.pairwise_cons.mpr h⟩
      intro e he
      simp only [List.mem_cons] at he
      rcases he with rfl | he
      · exact h1
      · exact lt_trans h1 (h.1 e he)
    · subst h2
      exact List.pairwise_cons.mpr h
    · rw [List.pairwise_cons]
      refine ⟨?_, ih h.2⟩
      intro e he
      rcases mem_map_assign rest k v e he with rfl | he
      · exact Nat.lt_of_le_of_ne (Nat.le_of_not_lt h1) (fun hak => h2 hak.symm)
      · exact h.1 e he

theorem map_sorted_body (w : World) (p : pid_t) (m : user_map) (h : map_sorted m) :
    map_sorted (enumerate_users_body w p m) := by
  unfold enumerate_users_body
  simp only
  split <;> exact map_sorted_assign _ _ _ h

theorem map_find_of_mem (m : user_map) (h : map_sorted m) (k : uid_t) (v : memory_t)
    (hm : (k, v) ∈ m) : map_find m k = some v := by
  unfold map_sorted at h
  induction m with
  | nil => simp at hm
  | cons x rest ih =>
    obtain ⟨a, b⟩ := x
    rw [List.pairwise_cons] at h
    simp only [List.mem_cons, Prod.mk.injEq] at hm
    rcases hm with ⟨rfl, rfl⟩ | hm
    · simp [map_find]
    · have : k ≠ a := Nat.ne_of_gt (h.1 (k, v) hm)
      simp [map_find, this, ih h.2 hm]

theorem mem_of_map_find (m : user_map) (k : uid_t) (v : memory_t)
    (h : map_find m k = some v) : (k, v) ∈ m := by
  induction m with
  | nil => simp [map_find] at h
  | cons x rest ih =>
    obtain ⟨a, b⟩ := x
    simp only [map_find] at h
    split_ifs at h with h1
    · subst h1
      simp only [Option.some.injEq] at h
      subst h
      simp
    · exact List.mem_cons_of_mem _ (ih h)

/-! ## Aggregation -/

theorem owned_by_append (w : World) (uid : uid_t) (l : List Nat) (p : Nat) :
    owned_by w uid (l ++ [p]) =
      owned_by w uid l ++ (if w.get_uid (p : Int) = uid then [p] else []) := by
  simp only [owned_by, List.filter_append, List.filter_cons, List.filter_nil, decide_eq_true_eq]

theorem rss_sum_append (w : World) (uid : uid_t) (l : List Nat) (p : Nat) :
    rss_sum w uid (l ++ [p]) =
      rss_sum w uid l + (if w.get_uid (p : Int) = uid then w.get_rss (p : Int) else 0) := by
  simp only [rss_sum, owned_by_append]
  split <;> simp

theorem aggregates_body (w : World) (m : user_map) (done : List Nat) (p : Nat)
    (h : aggregates w m done) :
    aggregates w (enumerate_users_body w (p : Int) m) (done ++ [p]) := by
  obtain ⟨hs, hf⟩ := h
  refine ⟨map_sorted_body w _ m hs, ?_⟩
  intro uid
  have hp := hf (w.get_uid (p : Int))
  unfold enumerate_users_body
  simp only
  by_cases hnone : map_find m (w.get_uid (p : Int)) = none
  · simp only [hnone, if_true]
    rw [map_find_assign, owned_by_append, rss_sum_append]
    by_cases hu : uid = w.get_uid (p : Int)
    · subst hu
      have hown : owned_by w (w.get_uid (p : Int)) done = [] := by
        by_contra hne
        rw [hnone] at hp
        simp [hne] at hp
      have hsum : rss_sum w (w.get_uid (p : Int)) done = 0 := by simp [rss_sum, hown]
      simp [hown, hsum]
    · have hu' : ¬ (w.get_uid (p : Int) = uid) := fun h => hu h.symm
      simp only [hu, hu', if_false, List.append_nil, Nat.add_zero]
      exact hf uid
  · simp only [hnone, if_false]
    rw [map_find_assign, owned_by_append, rss_sum_append]
    by_cases hu : uid = w.get_uid (p : Int)
    · subst hu
      have hown : owned_by w (w.get_uid (p : Int)) done ≠ [] := by
        intro hown
        rw [hown] at hp
        simp only [if_true] at hp
        exact hnone hp
      simp only [hown, if_false] at hp
      simp [map_at, hp]
    · have hu' : ¬ (w.get_uid (p : Int) = uid) := fun h => hu h.symm
      simp only [hu, hu', if_false, List.append_nil, Nat.add_zero]
      exact hf uid

theorem aggregates_foldl (w : World) (rest : List Nat) :
    ∀ (m : user_map) (done : List Nat), aggregates w m done →
      aggregates w
        ((rest.map (fun (p : Nat) => (p : Int))).foldl (fun a p => enumerate_users_body w p a) m)
        (done ++ rest) := by
  induction rest with
  | nil => intro m done h; simpa using h
  | cons p ps ih =>
    intro m done h
    have := ih _ _ (aggregates_body w m done p h)
    simpa [List.append_assoc] using this

theorem aggregates_nil (w : World) : aggregates w [] [] := by
  refine ⟨List.Pairwise.nil, ?_⟩
  intro uid
  simp [map_find, owned_by]

theorem owned_by_ne_nil_iff (w : World) (uid : uid_t) (pids : List Nat) :
    owned_by w uid pids ≠ [] ↔ ∃ p ∈ pids, w.get_uid (p : Int) = uid := by
  constructor
  · intro h
    obtain ⟨p, hp⟩ := List.exists_mem_of_ne_nil _ h
    simp only [owned_by, List.mem_filter, decide_eq_true_eq] at hp
    exact ⟨p, hp.1, hp.2⟩
  · rintro ⟨p, hp, hu⟩ h
    have : p ∈ owned_by w uid pids := by
      simp only [owned_by, List.mem_filter, decide_eq_true_eq]
      exact ⟨hp, hu⟩
    rw [h] at this
    cases this

theorem map_sorted_keys_nodup (m : user_map) (h : map_sorted m) : (m.map Prod.fst).Nodup := by
  unfold map_sorted at h
  rw [List.Nodup, List.pairwise_map]
  exact h.imp (fun hab => Nat.ne_of_lt hab)

/-- C2: on a filesystem view of a cgroup subtree, the map `enumerate_users`
builds from the subtree root into an empty map has exactly one entry per
distinct UID that owns a listed PID (its keys are distinct, they are exactly
the owning UIDs, and their number is the number of distinct owners), and each
entry's value is the sum of the resident set sizes of all PIDs that UID owns
at every depth of the subtree. -/
theorem enumerate_users_aggregates_per_uid (w : World) (cgpath : List Char) (root : CgDir)
    (g : Cgroup) (h : realizes root g = true) :
    (enumerate_users w cgpath root { out := [], log := [], ub := false }).ub = false ∧
      ((enumerate_users w cgpath root { out := [], log := [], ub := false }).out.map
        Prod.fst).Nodup ∧
      (∀ uid, uid ∈ (enumerate_users w cgpath root { out := [], log := [], ub := false }).out.map
          Prod.fst ↔ ∃ p ∈ g.pids, w.get_uid (p : Int) = uid) ∧
      (enumerate_users w cgpath root { out := [], log := [], ub := false }).out.length =
        ((g.pids.map (fun (p : Nat) => w.get_uid (p : Int))).dedup).length ∧
      (∀ uid rss,
        (uid, rss) ∈ (enumerate_users w cgpath root { out := [], log := [], ub := false }).out →
          rss = rss_sum w uid g.pids) := by
  obtain ⟨hout, hub⟩ := enumerate_users_realizes w cgpath root g
    { out := [], log := [], ub := false } h rfl
  have hagg := aggregates_foldl w g.pids [] [] (aggregates_nil w)
  simp only [List.nil_append] at hagg
  rw [hout]
  simp only at hagg ⊢
  generalize (g.pids.map (fun (p : Nat) => (p : Int))).foldl
    (fun a p => enumerate_users_body w p a) [] = m at hagg ⊢
  obtain ⟨hs, hf⟩ := hagg
  have hkeys : ∀ uid, uid ∈ m.map Prod.fst ↔ ∃ p ∈ g.pids, w.get_uid (p : Int) = uid := by
    intro uid
    rw [← owned_by_ne_nil_iff]
    constructor
    · intro hk hown
      obtain ⟨e, he, rfl⟩ := List.mem_map.mp hk
      have := map_find_of_mem m hs e.1 e.2 he
      rw [hf e.1, hown] at this
      simp at this
    · intro hown
      have := hf uid
      simp only [hown, if_false] at this
      exact List.mem_map.mpr ⟨(uid, rss_sum w uid g.pids), mem_of_map_find m _ _ this, rfl⟩
  have hnodup := map_sorted_keys_nodup m hs
  refine ⟨hub, hnodup, hkeys, ?_, ?_⟩
  · have hperm : (m.map Prod.fst).Perm
        ((g.pids.map (fun (p : Nat) => w.get_uid (p : Int))).dedup) := by
      rw [List.perm_ext_iff_of_nodup hnodup (List.nodup_dedup _)]
      intro uid
      rw [hkeys uid, List.mem_dedup, List.mem_map]
    simpa using hperm.length_eq
  · intro uid rss hm
    have h1 := map_find_of_mem m hs uid rss hm
    rw [hf uid] at h1
    split at h1
    · cases h1
    · exact (Option.some.inj h1).symm

/-- C2 on scenario A: the aggregate is `1000 ↦ 300, 2000 ↦ 50`, and 300 is the
sum for UID 1000 over the whole subtree. -/
theorem enumerate_users_aggregates_per_uid_witness :
    realizes scenario_root scenario_cgroup = true ∧
      (enumerate_users scenario_world (context_cgpath scenario_context) scenario_root
        { out := [], log := [], ub := false }).out = [(1000, 300), (2000, 50)] ∧
      300 = rss_sum scenario_world 1000 scenario_cgroup.pids :=
  ⟨by decide, by decide,
    (enumerate_users_aggregates_per_uid scenario_world (context_cgpath scenario_context)
      scenario_root scenario_cgroup (by decide)).2.2.2.2 1000 300 (by decide)⟩

/-! ## The snapshot and the kill phase -/

theorem enumerate_tasks_body_foldl (w : World) (victim_uid : uid_t) (l : List pid_t) :
    ∀ acc : List pid_t,
      l.foldl (fun a p => enumerate_tasks_body w victim_uid p a) acc =
        acc ++ l.filter (fun p => decide (w.get_uid p = victim_uid)) := by
  induction l with
  | nil => intro acc; simp
  | cons p ps ih =>
    intro acc
    rw [List.foldl_cons, ih]
    simp only [enumerate_tasks_body, List.filter_cons, decide_eq_true_eq]
    split <;> simp

theorem sigkill_victim_pid (w : World) (i : pid_t) :
    ∀ e ∈ sigkill_victim w i, e.is_attach = false ∧ e.pid = some i := by
  intro e he
  simp only [sigkill_victim, List.mem_cons] at he
  rcases he with rfl | he
  · exact ⟨rfl, rfl⟩
  · split at he
    · cases he
    · simp only [List.mem_singleton] at he
      subst he
      exact ⟨rfl, rfl⟩

/-- The second loop of `kill_victim` only appends to the trace, and what it
appends is no quarantine attach and concerns PIDs of the list it runs over. -/
theorem kill_victim_loop_trace (w : World) (l : List pid_t) :
    ∀ r : Run, ∃ rest,
      (kill_victim_loop w l r).trace = r.trace ++ rest ∧
        ∀ e ∈ rest, e.is_attach = false ∧ ∃ p ∈ l, e.pid = some p := by
  induction l with
  | nil => intro r; exact ⟨[], by simp [kill_victim_loop], by simp⟩
  | cons i rest ih =>
    intro r
    have hs := sigkill_victim_pid w i
    unfold kill_victim_loop
    simp only
    by_cases hm : w.fopen_root_memory i = true
    · by_cases hf : w.fopen_root_freezer i = true
      · simp only [hm, hf, Bool.not_true, Bool.false_eq_true, if_false]
        obtain ⟨rest', htr, hrest⟩ := ih
          { trace := r.trace ++ sigkill_victim w i ++ [Effect.fprintf_root_memory i] ++
              [Effect.fprintf_root_freezer i], ub := r.ub }
        refine ⟨sigkill_victim w i ++ [Effect.fprintf_root_memory i] ++
          [Effect.fprintf_root_freezer i] ++ rest', by rw [htr]; simp, ?_⟩
        intro e he
        simp only [List.mem_append, List.mem_singleton] at he
        rcases he with ((he | rfl) | rfl) | he
        · exact ⟨(hs e he).1, i, List.mem_cons_self _ _, (hs e he).2⟩
        · exact ⟨rfl, i, List.mem_cons_self _ _, rfl⟩
        · exact ⟨rfl, i, List.mem_cons_self _ _, rfl⟩
        · obtain ⟨h1, p, hp, h2⟩ := hrest e he
          exact ⟨h1, p, List.mem_cons_of_mem _ hp, h2⟩
      · simp only [hm, hf, Bool.not_true, Bool.false_eq_true, if_false, Bool.not_false, if_true]
        refine ⟨sigkill_victim w i ++ [Effect.fprintf_root_memory i], by simp, ?_⟩
        intro e he
        simp only [List.mem_append, List.mem_singleton] at he
        rcases he with he | rfl
        · exact ⟨(hs e he).1, i, List.mem_cons_self _ _, (hs e he).2⟩
        · exact ⟨rfl, i, List.mem_cons_self _ _, rfl⟩
    · simp only [hm, Bool.not_false, if_true]
      refine ⟨sigkill_victim w i, rfl, ?_⟩
      intro e he
      exact ⟨(hs e he).1, i, List.mem_cons_self _ _, (hs e he).2⟩

mutual
theorem enumerate_tasks_log (w : World) (cgpath : List Char) (victim_uid : uid_t) :
    ∀ (d : CgDir) (st : Walk (List pid_t)), (∀ e ∈ st.log, e.is_slog = true ∧ e.pid = none) →
      ∀ e ∈ (enumerate_tasks w cgpath victim_uid d st).log, e.is_slog = true ∧ e.pid = none
  | CgDir.mk tasks none => by
    intro st h e he
    simp only [enumerate_tasks, List.mem_append, List.mem_singleton] at he
    rcases he with he | rfl
    · exact h e he
    · exact ⟨rfl, rfl⟩
  | CgDir.mk tasks (some des) => by
    intro st h
    simp only [enumerate_tasks]
    exact enumerate_tasks_readdir_log w cgpath victim_uid des _ h
termination_by d => sizeOf d
theorem enumerate_tasks_readdir_log (w : World) (cgpath : List Char) (victim_uid : uid_t) :
    ∀ (des : List Dirent) (st : Walk (List pid_t)),
      (∀ e ∈ st.log, e.is_slog = true ∧ e.pid = none) →
      ∀ e ∈ (enumerate_tasks_readdir w cgpath victim_uid des st).log,
        e.is_slog = true ∧ e.pid = none
  | [] => by
    intro st h
    simpa only [enumerate_tasks_readdir] using h
  | Dirent.stat_error d_name errno :: rest => by
    intro st h
    simp only [enumerate_tasks_readdir]
    split
    · apply enumerate_tasks_readdir_log w cgpath victim_uid rest
      intro e he
      simp only [List.mem_append, List.mem_singleton] at he
      rcases he with he | rfl
      · exact h e he
      · exact ⟨rfl, rfl⟩
    · exact enumerate_tasks_readdir_log w cgpath victim_uid rest st h
  | Dirent.stat_other d_name :: rest => by
    intro st h
    simp only [enumerate_tasks_readdir]
    exact enumerate_tasks_readdir_log w cgpath victim_uid rest st h
  | Dirent.stat_dir d_name child :: rest => by
    intro st h
    simp only [enumerate_tasks_readdir]
    have h1 := enumerate_tasks_log w (tmp_path cgpath d_name) victim_uid child st h
    split
    · split
      · exact h1
      · exact enumerate_tasks_readdir_log w cgpath victim_uid rest _ h1
    · exact enumerate_tasks_readdir_log w cgpath victim_uid rest st h
termination_by des => sizeOf des
end

theorem kill_victim_snapshot_log (w : World) (cgc : cgroup_context) (root : CgDir)
    (victim_uid : uid_t) :
    ∀ e ∈ (kill_victim_snapshot w cgc root victim_uid).log, e.is_slog = true ∧ e.pid = none :=
  enumerate_tasks_log w (context_cgpath cgc) victim_uid root _ (by simp)

/-- C4: on a filesystem view of a cgroup subtree, the snapshot `enumerate_tasks`
produces for a victim UID is exactly the PIDs listed anywhere in the subtree
that the victim owns, in traversal order; and every effect of `kill_victim`
that concerns a process (attach, log line, signal, bookkeeping write) concerns
a PID of that snapshot. -/
theorem kill_victim_acts_on_exact_snapshot (w : World) (cgc : cgroup_context) (root : CgDir)
    (g : Cgroup) (victim_uid : uid_t) (h : realizes root g = true) :
    (kill_victim_snapshot w cgc root victim_uid).ub = false ∧
      (kill_victim_snapshot w cgc root victim_uid).out =
        (owned_by w victim_uid g.pids).map (fun (p : Nat) => (p : Int)) ∧
      ∀ e ∈ (kill_victim w cgc root victim_uid).trace, ∀ p, e.pid = some p →
        p ∈ (kill_victim_snapshot w cgc root victim_uid).out := by
  obtain ⟨hout, hub⟩ := enumerate_tasks_realizes w (context_cgpath cgc) victim_uid root g
    { out := [], log := [], ub := false } h rfl
  refine ⟨hub, ?_, ?_⟩
  · unfold kill_victim_snapshot
    rw [hout, enumerate_tasks_body_foldl]
    simp only [List.nil_append, owned_by, List.filter_map]
    rfl
  · intro e he p hp
    have hlog := kill_victim_snapshot_log w cgc root victim_uid
    unfold kill_victim at he
    simp only at he
    have hub' : (kill_victim_snapshot w cgc root victim_uid).ub = false := hub
    simp only [hub', Bool.false_eq_true, if_false] at he
    obtain ⟨rest, htr, hrest⟩ := kill_victim_loop_trace w
      (kill_victim_snapshot w cgc root victim_uid).out
      { trace := (kill_victim_snapshot w cgc root victim_uid).log ++
          (kill_victim_snapshot w cgc root victim_uid).out.map Effect.cgroup_attach_task_pid,
        ub := false }
    rw [htr] at he
    simp only [List.mem_append, List.mem_map] at he
    rcases he with (he | ⟨q, hq, rfl⟩) | he
    · rw [(hlog e he).2] at hp; cases hp
    · simp only [Effect.pid, Option.some.injEq] at hp
      subst hp; exact hq
    · obtain ⟨_, q, hq, hqe⟩ := hrest e he
      rw [hqe] at hp
      cases hp
      exact hq

/-- C4 on scenario A: with UID 1000 owning PIDs 10 and 11 and UID 2000 owning
PID 20, the snapshot for victim 1000 is `[10, 11]`. -/
theorem kill_victim_acts_on_exact_snapshot_witness :
    realizes scenario_root scenario_cgroup = true ∧
      (kill_victim_snapshot scenario_world scenario_context scenario_root 1000).out = [10, 11] :=
  ⟨by decide,
    (kill_victim_acts_on_exact_snapshot scenario_world scenario_context scenario_root
      scenario_cgroup 1000 (by decide)).2.1.trans (by decide)⟩

/-- C6: when the snapshot walk completes, the trace of `kill_victim` is the
log of the walk (which holds no signal), then one quarantine attach for every
PID of the snapshot in order, then the rest, which holds no attach: every
attach precedes the first termination signal. -/
theorem kill_victim_attaches_before_signals (w : World) (cgc : cgroup_context) (root : CgDir)
    (victim_uid : uid_t) (hub : (kill_victim_snapshot w cgc root victim_uid).ub = false) :
    ∃ rest,
      (kill_victim w cgc root victim_uid).trace =
        (kill_victim_snapshot w cgc root victim_uid).log ++
          (kill_victim_snapshot w cgc root victim_uid).out.map Effect.cgroup_attach_task_pid ++
          rest ∧
      (∀ e ∈ (kill_victim_snapshot w cgc root victim_uid).log, e.is_kill = false) ∧
      (∀ e ∈ rest, e.is_attach = false) := by
  obtain ⟨rest, htr, hrest⟩ := kill_victim_loop_trace w
    (kill_victim_snapshot w cgc root victim_uid).out
    { trace := (kill_victim_snapshot w cgc root victim_uid).log ++
        (kill_victim_snapshot w cgc root victim_uid).out.map Effect.cgroup_attach_task_pid,
      ub := false }
  refine ⟨rest, ?_, ?_, fun e he => (hrest e he).1⟩
  · unfold kill_victim
    simp only [hub, Bool.false_eq_true, if_false]
    exact htr
  · intro e he
    have := (kill_victim_snapshot_log w cgc root victim_uid e he).1
    cases e <;> simp_all [Effect.is_slog, Effect.is_kill]

/-- C6 on scenario A: both attaches come first, the first signal after them. -/
theorem kill_victim_attaches_before_signals_witness :
    (kill_victim_snapshot scenario_world scenario_context scenario_root 1000).ub = false ∧
      (kill_victim scenario_world scenario_context scenario_root 1000).trace.take 4 =
        [Effect.cgroup_attach_task_pid 10, Effect.cgroup_attach_task_pid 11,
          Effect.slog_killing 1000 10 "memory:/users;".toList, Effect.kill 10] ∧
      ∃ rest,
        (kill_victim scenario_world scenario_context scenario_root 1000).trace =
          (kill_victim_snapshot scenario_world scenario_context scenario_root 1000).log ++
            (kill_victim_snapshot scenario_world scenario_context scenario_root 1000).out.map
              Effect.cgroup_attach_task_pid ++ rest ∧
        (∀ e ∈ (kill_victim_snapshot scenario_world scenario_context scenario_root 1000).log,
          e.is_kill = false) ∧
        (∀ e ∈ rest, e.is_attach = false) :=
  ⟨by decide, by decide,
    kill_victim_attaches_before_signals scenario_world scenario_context scenario_root 1000
      (by decide)⟩

/-! ## Victim selection -/

mutual
theorem enumerate_users_invariant (w : World) (cgpath : List Char) :
    ∀ (d : CgDir) (st : Walk user_map), users_invariant st →
      users_invariant (enumerate_users w cgpath d st)
  | CgDir.mk tasks none => by
    intro st h
    simp only [enumerate_users]
    refine ⟨task_list_loop_invariant map_sorted _ (map_sorted_body w) _ _ _ _ h.1, ?_⟩
    intro e he
    simp only [List.mem_append, List.mem_singleton] at he
    rcases he with he | rfl
    · exact h.2 e he
    · rfl
  | CgDir.mk tasks (some des) => by
    intro st h
    simp only [enumerate_users]
    exact enumerate_users_readdir_invariant w cgpath des _
      ⟨task_list_loop_invariant map_sorted _ (map_sorted_body w) _ _ _ _ h.1, h.2⟩
termination_by d => sizeOf d
theorem enumerate_users_readdir_invariant (w : World) (cgpath : List Char) :
    ∀ (des : List Dirent) (st : Walk user_map), users_invariant st →
      users_invariant (enumerate_users_readdir w cgpath des st)
  | [] => by
    intro st h
    simpa only [enumerate_users_readdir] using h
  | Dirent.stat_error d_name errno :: rest => by
    intro st h
    simp only [enumerate_users_readdir]
    split
    · apply enumerate_users_readdir_invariant w cgpath rest
      refine ⟨h.1, ?_⟩
      intro e he
      simp only [List.mem_append, List.mem_singleton] at he
      rcases he with he | rfl
      · exact h.2 e he
      · rfl
    · exact enumerate_users_readdir_invariant w cgpath rest st h
  | Dirent.stat_other d_name :: rest => by
    intro st h
    simp only [enumerate_users_readdir]
    exact enumerate_users_readdir_invariant w cgpath rest st h
  | Dirent.stat_dir d_name child :: rest => by
    intro st h
    simp only [enumerate_users_readdir]
    have h1 := enumerate_users_invariant w (tmp_path cgpath d_name) child st h
    split
    · split
      · exact h1
      · exact enumerate_users_readdir_invariant w cgpath rest _ h1
    · exact enumerate_users_readdir_invariant w cgpath rest st h
termination_by des => sizeOf des
end

theorem find_victim_users_invariant (w : World) (cgc : cgroup_context) (root : CgDir) :
    users_invariant (find_victim_users w cgc root) :=
  enumerate_users_invariant w (context_cgpath cgc) root _ ⟨List.Pairwise.nil, by simp⟩

/-- The selection loop either keeps the running maximum, which then bounds
every entry, or ends at a strictly larger entry that bounds every entry and
has the lowest key among the entries with its value. -/
theorem find_victim_loop_spec (rest : user_map) (hs : map_sorted rest) :
    ∀ (max : memory_t) (max_uid : uid_t),
      (find_victim_loop rest max max_uid = max_uid ∧ ∀ e ∈ rest, e.2 ≤ max) ∨
        ∃ v, (find_victim_loop rest max max_uid, v) ∈ rest ∧ max < v ∧
          (∀ e ∈ rest, e.2 ≤ v) ∧
          (∀ e ∈ rest, e.2 = v → find_victim_loop rest max max_uid ≤ e.1) := by
  unfold map_sorted at hs
  induction rest with
  | nil => intro max max_uid; left; simp [find_victim_loop]
  | cons x rest ih =>
    obtain ⟨uid, rss⟩ := x
    rw [List.pairwise_cons] at hs
    intro max max_uid
    simp only [find_victim_loop]
    by_cases hgt : rss > max
    · simp only [hgt, if_true]
      right
      rcases ih hs.2 rss uid with ⟨hr, hall⟩ | ⟨v, hmem, hlt, hall, hties⟩
      · refine ⟨rss, by rw [hr]; exact List.mem_cons_self _ _, hgt, ?_, ?_⟩
        · intro e he
          rcases List.mem_cons.mp he with rfl | he
          · exact Nat.le_refl _
          · exact hall e he
        · intro e he _
          rw [hr]
          rcases List.mem_cons.mp he with rfl | he
          · exact Nat.le_refl _
          · exact Nat.le_of_lt (hs.1 e he)
      · refine ⟨v, List.mem_cons_of_mem _ hmem, Nat.lt_trans hgt hlt, ?_, ?_⟩
        · intro e he
          rcases List.mem_cons.mp he with rfl | he
          · exact Nat.le_of_lt hlt
          · exact hall e he
        · intro e he hev
          rcases List.mem_cons.mp he with rfl | he
          · exact absurd hev (Nat.ne_of_lt hlt)
          · exact hties e he hev
    · simp only [hgt, if_false]
      have hle : rss ≤ max := Nat.le_of_not_lt hgt
      rcases ih hs.2 max max_uid with ⟨hr, hall⟩ | ⟨v, hmem, hlt, hall, hties⟩
      · left
        refine ⟨hr, ?_⟩
        intro e he
        rcases List.mem_cons.mp he with rfl | he
        · exact hle
        · exact hall e he
      · right
        refine ⟨v, List.mem_cons_of_mem _ hmem, hlt, ?_, ?_⟩
        · intro e he
          rcases List.mem_cons.mp he with rfl | he
          · exact Nat.le_of_lt (Nat.lt_of_le_of_lt hle hlt)
          · exact hall e he
        · intro e he hev
          rcases List.mem_cons.mp he with rfl | he
          · exact absurd hev (Nat.ne_of_lt (Nat.lt_of_le_of_lt hle hlt))
          · exact hties e he hev

/-- On a non-empty map in key order the selected UID is a key whose value is
the maximum, and the lowest key among those with the maximum. -/
theorem find_victim_max_uid_spec (user_list : user_map) (hs : map_sorted user_list)
    (hne : user_list ≠ []) :
    ∃ v, (find_victim_max_uid user_list, v) ∈ user_list ∧
      (∀ e ∈ user_list, e.2 ≤ v) ∧
      (∀ e ∈ user_list, e.2 = v → find_victim_max_uid user_list ≤ e.1) := by
  cases user_list with
  | nil => exact absurd rfl hne
  | cons x rest =>
    obtain ⟨uid, rss⟩ := x
    simp only [find_victim_max_uid]
    rcases find_victim_loop_spec ((uid, rss) :: rest) hs rss uid with
      ⟨hr, hall⟩ | ⟨v, hmem, _, hall, hties⟩
    · refine ⟨rss, by rw [hr]; exact List.mem_cons_self _ _, hall, ?_⟩
      intro e he _
      rw [hr]
      unfold map_sorted at hs
      rw [List.pairwise_cons] at hs
      rcases List.mem_cons.mp he with rfl | he
      · exact Nat.le_refl _
      · exact Nat.le_of_lt (hs.1 e he)
    · exact ⟨v, hmem, hall, hties⟩

/-- With both root task lists openable for every process, the second loop of
`kill_victim` runs to its end without undefined behaviour. -/
theorem kill_victim_loop_files_open (w : World)
    (hopen : ∀ p, w.fopen_root_memory p = true ∧ w.fopen_root_freezer p = true)
    (l : List pid_t) : ∀ r : Run, (kill_victim_loop w l r).ub = r.ub := by
  induction l with
  | nil => intro r; simp [kill_victim_loop]
  | cons i rest ih =>
    intro r
    unfold kill_victim_loop
    simp only [(hopen i).1, (hopen i).2, Bool.not_true, Bool.false_eq_true, if_false]
    rw [ih]

mutual
theorem enumerate_walks_same_ub (w : World) (cgpath : List Char) (victim_uid : uid_t) :
    ∀ (d : CgDir) (su : Walk user_map) (st : Walk (List pid_t)), su.ub = st.ub →
      (enumerate_users w cgpath d su).ub = (enumerate_tasks w cgpath victim_uid d st).ub
  | CgDir.mk tasks none => by
    intro su st _
    simp only [enumerate_users, enumerate_tasks]
  | CgDir.mk tasks (some des) => by
    intro su st h
    simp only [enumerate_users, enumerate_tasks]
    exact enumerate_walks_readdir_same_ub w cgpath victim_uid des _ _ h
termination_by d => sizeOf d
theorem enumerate_walks_readdir_same_ub (w : World) (cgpath : List Char) (victim_uid : uid_t) :
    ∀ (des : List Dirent) (su : Walk user_map) (st : Walk (List pid_t)), su.ub = st.ub →
      (enumerate_users_readdir w cgpath des su).ub =
        (enumerate_tasks_readdir w cgpath victim_uid des st).ub
  | [] => by
    intro su st h
    simpa only [enumerate_users_readdir, enumerate_tasks_readdir] using h
  | Dirent.stat_error d_name errno :: rest => by
    intro su st h
    simp only [enumerate_users_readdir, enumerate_tasks_readdir]
    by_cases hne : errno ≠ ENOTDIR
    · simp only [if_pos hne]
      exact enumerate_walks_readdir_same_ub w cgpath victim_uid rest _ _ h
    · simp only [if_neg hne]
      exact enumerate_walks_readdir_same_ub w cgpath victim_uid rest su st h
  | Dirent.stat_other d_name :: rest => by
    intro su st h
    simp only [enumerate_users_readdir, enumerate_tasks_readdir]
    exact enumerate_walks_readdir_same_ub w cgpath victim_uid rest su st h
  | Dirent.stat_dir d_name child :: rest => by
    intro su st h
    simp only [enumerate_users_readdir, enumerate_tasks_readdir]
    have h1 := enumerate_walks_same_ub w (tmp_path cgpath d_name) victim_uid child su st h
    by_cases hdot : d_name.head? ≠ some '.'
    · simp only [if_pos hdot]
      by_cases hub : (enumerate_users w (tmp_path cgpath d_name) child su).ub = true
      · have hub' :
            (enumerate_tasks w (tmp_path cgpath d_name) victim_uid child st).ub = true := by
          rw [← h1]; exact hub
        simp only [hub, hub', if_true]
      · have hub' :
            ¬ (enumerate_tasks w (tmp_path cgpath d_name) victim_uid child st).ub = true := by
          rw [← h1]; exact hub
        simp only [hub, hub', if_false]
        exact enumerate_walks_readdir_same_ub w cgpath victim_uid rest _ _ h1
    · simp only [if_neg hdot]
      exact enumerate_walks_readdir_same_ub w cgpath victim_uid rest su st h
termination_by des => sizeOf des
end

/-- When the aggregation walk completes and both root task lists can be opened
for every process, the kill phase for any victim runs to its end. -/
theorem kill_victim_completes (w : World) (cgc : cgroup_context) (root : CgDir)
    (victim_uid : uid_t) (hub : (find_victim_users w cgc root).ub = false)
    (hopen : ∀ p, w.fopen_root_memory p = true ∧ w.fopen_root_freezer p = true) :
    (kill_victim w cgc root victim_uid).ub = false := by
  have hsnap : (kill_victim_snapshot w cgc root victim_uid).ub = false := by
    have := enumerate_walks_same_ub w (context_cgpath cgc) victim_uid root
      { out := [], log := [], ub := false } { out := [], log := [], ub := false } rfl
    unfold find_victim_users at hub
    unfold kill_victim_snapshot
    rw [← this]; exact hub
  unfold kill_victim
  simp only [hsnap, Bool.false_eq_true, if_false]
  rw [kill_victim_loop_files_open w hopen]

/-- What `find_victim` does when no null handle is dereferenced. If the
aggregation walk completes: on an empty aggregate it returns -1 and its trace
is the log of the walk, which holds no quarantine attach and no signal; on a
non-empty aggregate it runs `kill_victim` on a UID that is a key of the
aggregate, whose value is the maximum of the aggregate, and that is the lowest
UID among those with that value, and it returns 0 when both root task lists
can be opened for every process. -/
theorem find_victim_selection (w : World) (cgc : cgroup_context)
    (root : CgDir) (hub : (find_victim_users w cgc root).ub = false) :
    ((find_victim_users w cgc root).out = [] →
        find_victim w cgc root =
          { ret := some (-1), trace := (find_victim_users w cgc root).log } ∧
        ∀ e ∈ (find_victim w cgc root).trace, e.is_attach = false ∧ e.is_kill = false) ∧
      ((find_victim_users w cgc root).out ≠ [] →
        ∃ uid v,
          (uid, v) ∈ (find_victim_users w cgc root).out ∧
          (∀ e ∈ (find_victim_users w cgc root).out, e.2 ≤ v) ∧
          (∀ e ∈ (find_victim_users w cgc root).out, e.2 = v → uid ≤ e.1) ∧
          (find_victim w cgc root).trace =
            (find_victim_users w cgc root).log ++ (kill_victim w cgc root uid).trace ∧
          ((∀ p, w.fopen_root_memory p = true ∧ w.fopen_root_freezer p = true) →
            (find_victim w cgc root).ret = some 0)) := by
  have hinv := find_victim_users_invariant w cgc root
  constructor
  · intro hempty
    have hfv : find_victim w cgc root =
        { ret := some (-1), trace := (find_victim_users w cgc root).log } := by
      unfold find_victim
      simp [hub, hempty]
    refine ⟨hfv, ?_⟩
    rw [hfv]
    intro e he
    have := hinv.2 e he
    cases e <;> simp_all [Effect.is_slog, Effect.is_attach, Effect.is_kill]
  · intro hne
    obtain ⟨v, hmem, hall, hties⟩ :=
      find_victim_max_uid_spec (find_victim_users w cgc root).out hinv.1 hne
    have hlen : ¬ ((find_victim_users w cgc root).out.length < 1) := by
      have := List.length_pos.mpr hne
      omega
    refine ⟨find_victim_max_uid (find_victim_users w cgc root).out, v, hmem, hall, hties, ?_, ?_⟩
    · unfold find_victim
      simp only [hub, Bool.false_eq_true, if_false, hlen]
    · intro hopen
      have hk := kill_victim_completes w cgc root
        (find_victim_max_uid (find_victim_users w cgc root).out) hub hopen
      unfold find_victim
      simp only [hub, Bool.false_eq_true, if_false, hlen, hk]

/-- C3: in scenario A with the root memory-controller task list unopenable for
PID 10 the aggregation walk completes, the aggregate is not empty and UID 1000
(the key with the maximal value) is selected, but `find_victim` does not
return 0: `kill_victim` writes through the null stream after signalling PID 10
and the call never returns. -/
theorem find_victim_unopenable_root_memory_does_not_return :
    (find_victim_users unopenable_world scenario_context scenario_root).ub = false ∧
      (find_victim_users unopenable_world scenario_context scenario_root).out =
        [(1000, 300), (2000, 50)] ∧
      find_victim_max_uid
        (find_victim_users unopenable_world scenario_context scenario_root).out = 1000 ∧
      find_victim unopenable_world scenario_context scenario_root =
        { ret := none,
          trace := [Effect.cgroup_attach_task_pid 10, Effect.cgroup_attach_task_pid 11,
                    Effect.slog_killing 1000 10 "memory:/users;".toList, Effect.kill 10] } := by
  decide

/-! ## Directory entries `stat` fails on -/

theorem read_int_consumes (s : ifstream) (old : Int) (hg : s.good = true)
    (hr : (read_int s old).1.good = true) :
    (read_int s old).1.buf.length < s.buf.length := by
  unfold read_int at hr ⊢
  simp only [hg, if_true] at hr ⊢
  have hlen := length_dropWhile_le isspace s.buf
  cases hb : s.buf.dropWhile isspace with
  | nil =>
    rw [hb] at hr
    simp [ifstream.good] at hr
  | cons c cs =>
    rw [hb] at hr hlen
    simp only at hr ⊢
    have hblen : (if c = '-' ∨ c = '+' then cs else c :: cs).length ≤ (c :: cs).length := by
      split <;> simp
    generalize (if c = '-' ∨ c = '+' then cs else c :: cs) = b at hr hblen ⊢
    have hsplit := congrArg List.length (List.takeWhile_append_dropWhile isdigit b)
    rw [List.length_append] at hsplit
    by_cases hds : b.takeWhile isdigit = []
    · simp [hds, ifstream.good] at hr
    · have hpos := List.length_pos.mpr hds
      simp only [hds, if_false] at hr ⊢
      split_ifs at hr ⊢ <;> first
        | (simp [ifstream.good] at hr; done)
        | (simp only; omega)

/-- The read loop gives the same result for every amount of fuel above the
number of unread characters plus one: `task_list_fuel` lets it run to its
exit. -/
theorem task_list_loop_fuel {σ : Type} (body : pid_t → σ → σ) :
    ∀ (f1 f2 : Nat) (s : ifstream) (pid : pid_t) (acc : σ),
      (if s.good then s.buf.length + 1 else 0) < f1 →
      (if s.good then s.buf.length + 1 else 0) < f2 →
      task_list_loop body f1 s pid acc = task_list_loop body f2 s pid acc := by
  intro f1
  induction f1 with
  | zero => intro f2 s pid acc h; omega
  | succ f1 ih =>
    intro f2 s pid acc h1 h2
    obtain ⟨f2, rfl⟩ : ∃ f, f2 = f + 1 := ⟨f2 - 1, by omega⟩
    unfold task_list_loop
    by_cases hg : s.good = true
    · simp only [hg, if_true] at h1 h2 ⊢
      by_cases hr : (read_int s pid).1.good = true
      · have hlt := read_int_consumes s pid hg hr
        simp only [hr, Bool.not_true, Bool.false_eq_true, if_false]
        apply ih
        · simp only [hr, if_true]; omega
        · simp only [hr, if_true]; omega
      · simp [hr]
    · simp [hg]

/-- On any file, more fuel than `task_list_fuel` does not change what the read
loop does. -/
theorem task_list_fuel_enough {σ : Type} (body : pid_t → σ → σ) (file : Option (List Char))
    (fuel : Nat) (pid : pid_t) (acc : σ) (h : task_list_fuel file ≤ fuel) :
    task_list_loop body fuel (ifstream_open file) pid acc =
      task_list_loop body (task_list_fuel file) (ifstream_open file) pid acc := by
  apply task_list_loop_fuel
  · cases file with
    | none => simp [ifstream_open, ifstream.good, task_list_fuel] at h ⊢; omega
    | some content =>
      simp only [task_list_fuel, Option.getD_some, ifstream_open] at h ⊢
      split <;> omega
  · cases file with
    | none => simp [ifstream_open, ifstream.good, task_list_fuel]
    | some content =>
      simp only [task_list_fuel, Option.getD_some, ifstream_open]
      split <;> omega

theorem read_string_consumes (s : ifstream) (hg : s.good = true)
    (hr : (read_string s).1.good = true) :
    (read_string s).1.buf.length < s.buf.length := by
  unfold read_string at hr ⊢
  simp only [hg, if_true] at hr ⊢
  have hlen := length_dropWhile_le isspace s.buf
  cases hb : s.buf.dropWhile isspace with
  | nil =>
    rw [hb] at hr
    simp [ifstream.good] at hr
  | cons c cs =>
    have hc := head_dropWhile_isspace hb
    rw [hb] at hlen
    simp only [List.dropWhile_cons, hc, Bool.not_false, if_true]
    have := length_dropWhile_le (fun x => !isspace x) cs
    simp only [List.length_cons] at hlen
    omega

/-- The loop of `get_cgroup_from_pid` gives the same result for every amount
of fuel above the number of unread characters plus one. -/
theorem get_cgroup_from_pid_loop_fuel :
    ∀ (f1 f2 : Nat) (gcl : ifstream) (result : List Char),
      (if gcl.good then gcl.buf.length + 1 else 0) < f1 →
      (if gcl.good then gcl.buf.length + 1 else 0) < f2 →
      get_cgroup_from_pid_loop f1 gcl result = get_cgroup_from_pid_loop f2 gcl result := by
  intro f1
  induction f1 with
  | zero => intro f2 gcl result h; omega
  | succ f1 ih =>
    intro f2 gcl result h1 h2
    obtain ⟨f2, rfl⟩ : ∃ f, f2 = f + 1 := ⟨f2 - 1, by omega⟩
    unfold get_cgroup_from_pid_loop
    by_cases hg : gcl.good = true
    · simp only [hg, if_true] at h1 h2 ⊢
      have hnext : ∀ f, gcl.buf.length + 1 < f + 1 →
          (if (read_string gcl).1.good then (read_string gcl).1.buf.length + 1 else 0) < f := by
        intro f hf
        by_cases hr : (read_string gcl).1.good = true
        · have := read_string_consumes gcl hg hr
          simp only [hr, if_true]; omega
        · simp only [hr, Bool.false_eq_true, if_false]; omega
      split
      · split
        · exact ih _ _ _ (hnext f1 h1) (hnext f2 h2)
        · exact ih _ _ _ (hnext f1 h1) (hnext f2 h2)
      · exact ih _ _ _ (hnext f1 h1) (hnext f2 h2)
    · simp [hg]

/-- A result of the loop of `is_oom` does not change with more fuel. -/
theorem is_oom_loop_fuel :
    ∀ (f1 f2 : Nat) (oc : ifstream) (isoom r : Int), f1 ≤ f2 →
      is_oom_loop f1 oc isoom = some r → is_oom_loop f2 oc isoom = some r := by
  intro f1
  induction f1 with
  | zero => intro f2 oc isoom r _ h; simp [is_oom_loop] at h
  | succ f1 ih =>
    intro f2 oc isoom r hle h
    obtain ⟨f2, rfl⟩ : ∃ f, f2 = f + 1 := ⟨f2 - 1, by omega⟩
    unfold is_oom_loop at h ⊢
    by_cases hg : oc.good = true
    · simp only [hg, if_true] at h ⊢
      by_cases hk : (read_string oc).2 = under_oom
      · simp only [hk, if_true] at h ⊢
        exact ih _ _ _ _ (by omega) h
      · simp only [hk, if_false] at h ⊢
        exact ih _ _ _ _ (by omega) h
    · simpa [hg] using h

/-! ## Defects of the kill phase and of the probe -/

/-- The gate of `sigkill_victim` is on the value of `pid_state`: the signal is
sent exactly when that value is neither `D` nor `Z`. -/
theorem sigkill_victim_gate (w : World) (pid : pid_t) :
    Effect.kill pid ∈ sigkill_victim w pid ↔ ¬ (w.pid_state = 'D' ∨ w.pid_state = 'Z') := by
  unfold sigkill_victim
  by_cases h : w.pid_state = 'D' ∨ w.pid_state = 'Z'
  · simp [h]
  · simp [h]

/-- C5: `sigkill_victim` never looks at the state of the process: its effects
are the same whatever `/proc/<pid>/stat` holds. In scenario A with every
process a zombie (as `get_pid_state` would report) it still sends `SIGKILL` to
PID 10, and with `pid_state` holding `D` it sends none to the runnable
PID 10. -/
theorem sigkill_victim_signals_zombie :
    get_pid_state zombie_world 10 'R' = some (0, 'Z') ∧
      sigkill_victim zombie_world 10 =
        [Effect.slog_killing 1000 10 "memory:/users;".toList, Effect.kill 10] ∧
      get_pid_state stale_state_world 10 'D' = some (0, 'R') ∧
      sigkill_victim stale_state_world 10 =
        [Effect.slog_killing 1000 10 "memory:/users;".toList] ∧
      ∀ (w : World) (stat : pid_t → Option (List Char)) (pid : pid_t),
        sigkill_victim { w with proc_stat := stat } pid = sigkill_victim w pid :=
  ⟨by decide, by decide, by decide, by decide, fun _ _ _ => rfl⟩

/-- C8: in scenario A with the root memory-controller task list unopenable for
PID 10, `kill_victim` for UID 1000 attaches 10 and 11, logs and signals 10,
and then writes through the null stream: nothing is logged about the failure
and PID 11 is neither signalled nor recorded. -/
theorem kill_victim_unopenable_root_memory_stops :
    kill_victim unopenable_world scenario_context scenario_root 1000 =
      { trace := [Effect.cgroup_attach_task_pid 10, Effect.cgroup_attach_task_pid 11,
                  Effect.slog_killing 1000 10 "memory:/users;".toList, Effect.kill 10],
        ub := true } := by
  decide

end UserspaceOom
